import Mathlib

/-!
Verification development for the document sectioning and snippet-patch engine
of the PeeR_Power editor (src/App.tsx).

Strings are modelled as `List Char` (one element per UTF-16 code unit of the
JavaScript string; all inputs considered here stay within the BMP, where the
two notions of character coincide).  The JavaScript string operations used by
the source (`split(/\r?\n/)`, `trim`, `includes`, `indexOf`, `replace` with a
string pattern, `substring`, `join`) are embedded below, and the two heading
regular expressions of `modularizeText` are embedded by a case analysis that
follows the backtracking behaviour of the JavaScript regex engine (documented
at the definitions).
-/

/-- Strings are lists of characters. -/
abbrev Str := List Char

/-- The character class `\s` of JavaScript regular expressions, which is also
exactly the set of characters removed by `String.prototype.trim`:
WhiteSpace (TAB VT FF SP NBSP ZWNBSP and Unicode Space_Separator)
together with the LineTerminator characters LF CR LS PS. -/
def isJsWs (c : Char) : Bool :=
  c = ' ' || c = Char.ofNat 9 || c = Char.ofNat 10 || c = Char.ofNat 11 ||
  c = Char.ofNat 12 || c = Char.ofNat 13 || c = Char.ofNat 0xa0 ||
  c = Char.ofNat 0x1680 || (0x2000 ≤ c.toNat && c.toNat ≤ 0x200a) ||
  c = Char.ofNat 0x2028 || c = Char.ofNat 0x2029 || c = Char.ofNat 0x202f ||
  c = Char.ofNat 0x205f || c = Char.ofNat 0x3000 || c = Char.ofNat 0xfeff

/-- The character class `[A-Z]`. -/
def isUpperChar (c : Char) : Bool :=
  65 ≤ c.toNat && c.toNat ≤ 90

/-- The line feed character. -/
def lfChar : Char := Char.ofNat 10

/-- The carriage return character. -/
def crChar : Char := Char.ofNat 13

/-- `String.prototype.trimStart`. -/
def jsTrimStart (s : Str) : Str := s.dropWhile isJsWs

/-- `String.prototype.trimEnd`. -/
def jsTrimEnd (s : Str) : Str := (s.reverse.dropWhile isJsWs).reverse

/-- `String.prototype.trim`. -/
def jsTrim (s : Str) : Str := jsTrimStart (jsTrimEnd s)

/-- `text.split(/\r?\n/)`: cut the string at each LF, also consuming a CR
that immediately precedes the LF.  A lone CR is kept inside its line. -/
def splitRNLines : Str → List Str
  | [] => [[]]
  | [c] => if c = lfChar then [[], []] else [[c]]
  | c :: d :: rest =>
    if c = lfChar then [] :: splitRNLines (d :: rest)
    else if c = crChar && d = lfChar then [] :: splitRNLines rest
    else
      match splitRNLines (d :: rest) with
      | [] => [[c]]
      | l :: ls => (c :: l) :: ls

/-- Cut a string at each LF (the behaviour of `split(/\r?\n/)` on CR-free
input). -/
def splitLF : Str → List Str
  | [] => [[]]
  | c :: cs =>
    if c = lfChar then [] :: splitLF cs
    else
      match splitLF cs with
      | [] => [[c]]
      | l :: ls => (c :: l) :: ls

/-- `array.join('\n')`. -/
def joinLF : List Str → Str
  | [] => []
  | [l] => l
  | l :: ls => l ++ lfChar :: joinLF ls

/-- `array.join('\n\n')`. -/
def joinSep2 : List Str → Str
  | [] => []
  | [b] => b
  | b :: bs => b ++ lfChar :: lfChar :: joinSep2 bs

/-- `body.indexOf(pat)` (and `body.includes(pat)` via `Option.isSome`):
index of the first occurrence of `pat` as a contiguous substring. -/
def findSub (pat : Str) : Str → Option Nat
  | [] => if pat.isEmpty then some 0 else none
  | b :: bs =>
    if pat.isPrefixOf (b :: bs) then some 0
    else (findSub pat bs).map (fun n => n + 1)

/-- `body.includes(pat)`. -/
def jsIncludes (body pat : Str) : Bool := (findSub pat body).isSome

/-- The dollar character. -/
def dollarChar : Char := Char.ofNat 36

/-- The ampersand character. -/
def ampChar : Char := Char.ofNat 38

/-- The backquote character. -/
def bqChar : Char := Char.ofNat 96

/-- The single quote character. -/
def sqChar : Char := Char.ofNat 39

/-- ECMAScript `GetSubstitution` for a string (non-regexp) pattern: in the
replacement string, `$$` stands for `$`, `$&` for the matched substring,
a dollar followed by a backquote for the part of the body before the match,
`$` followed by a single quote for the part after it; any other `$`
(including `$1`..`$9`, since a string pattern has no capture groups) is
literal. -/
def getSubstitution (matched before after : Str) : Str → Str
  | [] => []
  | [c] => [c]
  | c :: d :: rest =>
    if c = dollarChar then
      if d = dollarChar then dollarChar :: getSubstitution matched before after rest
      else if d = ampChar then matched ++ getSubstitution matched before after rest
      else if d = bqChar then before ++ getSubstitution matched before after rest
      else if d = sqChar then after ++ getSubstitution matched before after rest
      else c :: getSubstitution matched before after (d :: rest)
    else c :: getSubstitution matched before after (d :: rest)

/-- `body.replace(pat, rep)` with a string pattern: replace the first
occurrence of `pat`, expanding `$`-patterns in `rep` per `getSubstitution`. -/
def jsReplace (body pat rep : Str) : Str :=
  match findSub pat body with
  | none => body
  | some i =>
    body.take i ++
      getSubstitution pat (body.take i) (body.drop (i + pat.length)) rep ++
      body.drop (i + pat.length)

/-- `s.substring(a, b)` (with nonnegative arguments): clamp both arguments to
the length, swap them if needed, and return the segment between them. -/
def jsSubstring (s : Str) (a b : Nat) : Str :=
  let a' := min a s.length
  let b' := min b s.length
  (s.take (max a' b')).drop (min a' b')

/-- Characters of a string literal. -/
def str (s : String) : Str := s.data

/-- Decimal digit character. -/
def digitChar (n : Nat) : Char := Char.ofNat (48 + n)

/-- Decimal digits of a natural number (fuelled helper). -/
def natCharsAux : Nat → Nat → Str
  | 0, _ => []
  | fuel + 1, n =>
    if n < 10 then [digitChar n]
    else natCharsAux fuel (n / 10) ++ [digitChar (n % 10)]

/-- Decimal digits of a natural number, as written by JavaScript string
interpolation of a nonnegative integer. -/
def natChars (n : Nat) : Str := natCharsAux (n + 1) n

/-! ## The repository model (src/App.tsx) -/

/-- `PaperSection` (types.ts): one titled block of the document. -/
structure PaperSection where
  id : Str
  title : Str
  content : Str
deriving DecidableEq, Repr

/-- `INITIAL_SECTIONS` (App.tsx lines 23–28): the default seed sections. -/
def INITIAL_SECTIONS : List PaperSection :=
  [ { id := str "abstract", title := str "Abstract",
      content := str "Artificial Intelligence (AI) has rapidly evolved, becoming a tapestry of innovation in various fields. It is paramount to underscore the significance of Large Language Models (LLMs) in this landscape." },
    { id := str "intro", title := str "Introduction",
      content := str "The rapid proliferation of digital technologies has ushered in a new era of information dissemination. It is important to note that the data landscape is shifting." },
    { id := str "methods", title := str "Methods",
      content := str "We utilize a novel framework to assess the performance of transformers in zero-shot environments." },
    { id := str "refs", title := str "References", content := [] } ]

/-- The hash character. -/
def hashChar : Char := Char.ofNat 35

/-- The ECMAScript line terminators (LF, CR, LS `U+2028`, PS `U+2029`): the
characters that `.` cannot match in a regex without the `s` flag.  All four
are also `\s` characters.  `split(/\r?\n/)` removes every LF and the CR of a
CRLF pair, so a physical line can still contain a lone CR, an LS or a PS. -/
def isLineTerm (c : Char) : Bool :=
  c = Char.ofNat 10 || c = Char.ofNat 13 || c = Char.ofNat 0x2028 ||
  c = Char.ofNat 0x2029

/-- `line.match(/^\s*(#+)\s*(.+?)\s*$/)` (App.tsx line 37), returning the two
capture groups on success.  Derivation of the match semantics from the
backtracking behaviour of the regex engine, writing `t` for `line` without
its maximal leading `\s` run, `hashes` for the maximal `#`-run at the head
of `t`, and `r` for the rest of `t`.  The dot of the mandatory lazy `(.+?)`
matches every character except the four line terminators (which are all
whitespace, so the three `\s*` runs can absorb them), and the anchors are
exact (no `m` flag).  If `hashes` is empty the match fails: shrinking the
leading `\s*` only exposes whitespace to `(#+)`.  If `r` is empty, the
greedy `(#+)` gives back its last hash to the lazy group when it has 2 or
more hashes, so group 1 is `hashes` minus one hash and group 2 is a single
hash; with a single hash the match fails.  If the trimmed rest
`b = trim r` is nonempty, the lazy group must stretch from the first to the
last non-whitespace character of `r`, i.e. over all of `b`, which succeeds
iff `b` contains no line terminator, and then group 2 is `b` (the inner
`\s*` absorbs the whitespace before `b`, the trailing `\s*$` the whitespace
after it).  If `r` is nonempty but all whitespace, the inner `\s*`
backtracks until the lazy group sits on the last character of `r` that is
not a line terminator (the trailing `\s*$` absorbs everything after it), so
group 2 is that single character; if every character of `r` is a line
terminator, the lazy group has nowhere to stand and the hash give-back
applies exactly as in the empty-`r` case. -/
def lineHeaderMatch1 (line : Str) : Option (Str × Str) :=
  let t := line.dropWhile isJsWs
  let hashes := t.takeWhile (fun c => c = hashChar)
  let r := t.drop hashes.length
  if hashes.isEmpty then none
  else if r.isEmpty then
    if 2 ≤ hashes.length then some (hashes.take (hashes.length - 1), [hashChar])
    else none
  else
    let b := jsTrim r
    if b.isEmpty then
      let revDot := r.reverse.dropWhile isLineTerm
      if revDot.isEmpty then
        if 2 ≤ hashes.length then some (hashes.take (hashes.length - 1), [hashChar])
        else none
      else some (hashes, [revDot.headD ' '])
    else
      if b.any isLineTerm then none
      else some (hashes, b)

/-- `line.match(/^\s*([A-Z\s]{4,})\s*$/)` (App.tsx line 37), returning the
capture group on success.  Since `\s ⊆ [A-Z\s]`, the anchored pattern matches
iff every character of the line is an uppercase letter or whitespace and the
line has at least 4 characters; the greedy leading `\s*` keeps as much of the
whitespace prefix as it can while leaving at least 4 characters for the
group, so the group is the line minus `min wsPrefix (length - 4)` leading
characters. -/
def lineHeaderMatch2 (line : Str) : Option Str :=
  if 4 ≤ line.length && line.all (fun c => isUpperChar c || isJsWs c) then
    some (line.drop (min (line.takeWhile isJsWs).length (line.length - 4)))
  else none

/-- The header test of `modularizeText` (App.tsx line 37) combined with the
captured header text `headerMatch[2] || headerMatch[1]` (line 42):
`none` when the line matches neither regex. -/
def headerTitle (line : Str) : Option Str :=
  match lineHeaderMatch1 line with
  | some (g1, g2) => some (if g2.isEmpty then g1 else g2)
  | none =>
    match lineHeaderMatch2 line with
    | some g1 => some g1
    | none => none

/-- The loop state of `modularizeText` (App.tsx lines 31–35). -/
structure ModState where
  currentHeader : Str
  currentContent : List Str
  secs : List PaperSection
  sectionCount : Nat
deriving Repr

/-- The section identifier `` `sec-${sectionCount}-${Date.now()}` ``;
the timestamp is a parameter `now`. -/
def mkSecId (count now : Nat) : Str :=
  str "sec-" ++ natChars count ++ [Char.ofNat 45] ++ natChars now

/-- `sections.push({...})` (App.tsx lines 40 and 49): emit the buffered
section with default title `defTitle` when no header was set. -/
def pushSection (now : Nat) (defTitle : Str) (st : ModState) : ModState :=
  { st with
    secs := st.secs ++
      [ { id := mkSecId st.sectionCount now,
          title := if st.currentHeader.isEmpty then defTitle else st.currentHeader,
          content := jsTrim (joinLF st.currentContent) } ],
    sectionCount := st.sectionCount + 1 }

/-- The body of the `lines.forEach` loop of `modularizeText`
(App.tsx lines 36–47). -/
def modStep (now : Nat) (st : ModState) (line : Str) : ModState :=
  match headerTitle line with
  | some g =>
    let st' :=
      if !st.currentContent.isEmpty || !st.currentHeader.isEmpty then
        pushSection now (str "Front Matter") st
      else st
    { st' with currentHeader := g, currentContent := [] }
  | none => { st with currentContent := st.currentContent ++ [line] }

/-- Folding the loop body over the lines. -/
def modFold (now : Nat) (st : ModState) : List Str → ModState
  | [] => st
  | l :: ls => modFold now (modStep now st l) ls

/-- The final flush of `modularizeText` (App.tsx lines 48–50). -/
def modFinal (now : Nat) (st : ModState) : ModState :=
  if !st.currentContent.isEmpty || !st.currentHeader.isEmpty then
    pushSection now (str "Introduction") st
  else st

/-- `modularizeText` (App.tsx lines 30–52), the sectionizer: split the text
into lines, scan for heading lines, and emit titled sections; fall back to
`INITIAL_SECTIONS` when no section was emitted.  `now` is the `Date.now()`
timestamp used inside generated ids. -/
def modularizeText (now : Nat) (text : Str) : List PaperSection :=
  let st := modFinal now (modFold now ⟨[], [], [], 0⟩ (splitRNLines text))
  if st.secs.isEmpty then INITIAL_SECTIONS else st.secs

/-- One block `` `# ${s.title}\n\n${s.content}` `` of the full document view
(App.tsx line 78). -/
def sectionBlock (s : PaperSection) : Str :=
  str "# " ++ s.title ++ lfChar :: lfChar :: s.content

/-- `fullText` (App.tsx line 78): the full-document markdown view. -/
def fullText (sections : List PaperSection) : Str :=
  joinSep2 (sections.map sectionBlock)

/-- `AnalysisIssue` (types.ts), restricted to the fields the patch engine
reads: `id`, and the optional `snippet`/`replacement` pair. -/
structure AnalysisIssue where
  id : Str
  snippet : Option Str
  replacement : Option Str
deriving DecidableEq, Repr

/-- JavaScript falsiness of an optional string: absent or empty. -/
def jsFalsyStr : Option Str → Bool
  | none => true
  | some s => s.isEmpty

/-- The part of the App state read and written by `handleConfirmFix`:
the section list and the pending issue list of the analysis result
(`analysisResult` is `none` when no analysis is displayed). -/
structure AppState where
  sections : List PaperSection
  analysisResult : Option (List AnalysisIssue)
deriving DecidableEq, Repr

/-- `handleConfirmFix` (App.tsx lines 191–196): if the issue has a truthy
snippet and replacement, map over all sections, replacing the first
occurrence of the snippet in each section whose content includes it, and
filter the issue out of the pending issue list (when an analysis result is
present).  Otherwise do nothing. -/
def handleConfirmFix (st : AppState) (issue : AnalysisIssue) : AppState :=
  if jsFalsyStr issue.snippet || jsFalsyStr issue.replacement then st
  else
    let sn := issue.snippet.getD []
    let rep := issue.replacement.getD []
    { sections := st.sections.map (fun s =>
        if jsIncludes s.content sn then
          { s with content := jsReplace s.content sn rep }
        else s),
      analysisResult :=
        match st.analysisResult with
        | none => none
        | some issues => some (issues.filter (fun i => !(i.id == issue.id))) }

/-- `applySnippetFix` (spec section 4.2 Contract B), as realised by the
guard of App.tsx line 192 and the per-body expression
`body.includes(snippet) ? body.replace(snippet, replacement) : body`
of line 193: replace the first occurrence and report whether a replacement
happened. -/
def applySnippetFix (body snippet replacement : Str) : Str × Bool :=
  if snippet.isEmpty then (body, false)
  else if jsIncludes body snippet then (jsReplace body snippet replacement, true)
  else (body, false)

/-- `spliceAtOffsets` (spec section 4.2 Contract A), as realised by
`content.substring(0, start) + segment + content.substring(end)` in
`updateDocumentAtSelection` (App.tsx lines 167–168 and 172). -/
def spliceAtOffsets (body : Str) (start stop : Nat) (replacement : Str) : Str :=
  jsSubstring body 0 start ++ replacement ++ jsSubstring body stop body.length

/-- The transient selection `{ text, start, end, sectionId? }`
(App.tsx line 69); `stop` models `end`. -/
structure Selection where
  text : Str
  start : Nat
  stop : Nat
  sectionId : Option Str
deriving Repr

/-- `updateDocumentAtSelection` (App.tsx lines 164–175), acting on the
section list: in full-document mode with no section id bound to the
selection, splice into the full view and re-derive the sections; otherwise
splice into the content of the section whose id is the selection's id (or
the active section id when the selection's id is absent or empty, matching
`selection.sectionId || activeSectionId`). -/
def updateDocumentAtSelection (now : Nat) (isFullDocMode : Bool)
    (activeSectionId : Str) (sections : List PaperSection)
    (sel : Selection) (newSegment : Str) : List PaperSection :=
  if isFullDocMode && sel.sectionId.isNone then
    modularizeText now (spliceAtOffsets (fullText sections) sel.start sel.stop newSegment)
  else
    let targetId :=
      match sel.sectionId with
      | some sid => if sid.isEmpty then activeSectionId else sid
      | none => activeSectionId
    sections.map (fun s =>
      if s.id == targetId then
        { s with content := spliceAtOffsets s.content sel.start sel.stop newSegment }
      else s)

/-! ## Spec-side definitions, used to compare the spec's words with the code -/

/-- Modelled from the spec (claim C5's wording): a line is a heading line iff
(a) it has one or more leading hash characters followed by non-empty trimmed
text, or (b) the entire line, after trimming, consists of at least 4
characters drawn only from uppercase letters and spaces. -/
def specIsHeadingLine (line : Str) : Bool :=
  (let hashes := line.takeWhile (fun c => c = hashChar)
   !hashes.isEmpty && !(jsTrim (line.drop hashes.length)).isEmpty) ||
  (let t := jsTrim line
   4 ≤ t.length && t.all (fun c => isUpperChar c || c = ' '))

/-- A pattern occurs in a body at offset `k`. -/
def occursAt (body pat : Str) (k : Nat) : Prop :=
  pat.isPrefixOf (body.drop k)

instance (body pat : Str) (k : Nat) : Decidable (occursAt body pat k) := by
  unfold occursAt; infer_instance

/-- The titles `modularizeText` should produce according to the document
order invariant: the heading titles in encounter order, preceded by a
`Front Matter` section when content precedes the first heading, or a single
`Introduction` section when no line is a heading. -/
def modTitlesSpec (lines : List Str) : List Str :=
  let H := lines.filterMap headerTitle
  if H.isEmpty then [str "Introduction"]
  else
    match lines with
    | [] => H
    | l0 :: _ => if (headerTitle l0).isSome then H else str "Front Matter" :: H

/-! ## Derived definitions used by the verification -/

def modifyLast (f : Str → Str) : List Str → List Str
  | [] => []
  | [l] => [f l]
  | l :: l2 :: ls => l :: modifyLast f (l2 :: ls)

def wsWrap (inner outer : Str) : Prop :=
  ∃ w1 w2, (∀ c ∈ w1, isJsWs c = true) ∧ (∀ c ∈ w2, isJsWs c = true) ∧
    w1 ++ inner ++ w2 = outer

/-- The rest of a line after its leading whitespace and the following
maximal run of hash characters (the part the groups `\s*(.+?)\s*$` of the
first heading regex have to match). -/
def hashRest (line : Str) : Str :=
  (line.dropWhile isJsWs).drop
    ((line.dropWhile isJsWs).takeWhile (fun c => c = hashChar)).length

/-- A string that can round-trip as a `# `-serialised title: it is either
trim-stable, non-empty and free of line terminators, or a single whitespace
character that is not a line terminator. -/
def TitleP (t : Str) : Prop :=
  (jsTrim t = t ∧ t ≠ [] ∧ ∀ c ∈ t, isLineTerm c = false) ∨
  (∃ w, isJsWs w = true ∧ isLineTerm w = false ∧ t = [w])

/-- Shape invariant of the sections produced by `modularizeText` on
CR-free input whose lines never match the uppercase heading regex. -/
def SecQ (s : PaperSection) : Prop :=
  s.title ≠ [] ∧ lfChar ∉ s.title ∧ crChar ∉ s.title ∧ TitleP s.title ∧
  jsTrim s.content = s.content ∧ crChar ∉ s.content ∧
  (∀ l ∈ splitLF s.content, headerTitle l = none)

def BufQ (buf : List Str) : Prop :=
  ∀ l ∈ buf, headerTitle l = none ∧ lfChar ∉ l ∧ crChar ∉ l

def HdrQ (t : Str) : Prop :=
  t = [] ∨ (t ≠ [] ∧ lfChar ∉ t ∧ crChar ∉ t ∧ TitleP t)

def blockLinesOf (s : PaperSection) : List Str :=
  (str "# " ++ s.title) :: [] :: splitLF s.content

def interLines : List PaperSection → List Str
  | [] => []
  | [s] => blockLinesOf s
  | s :: s2 :: rest => blockLinesOf s ++ [[]] ++ interLines (s2 :: rest)

def tailLines : List PaperSection → List Str
  | [] => []
  | r :: rs => [] :: interLines (r :: rs)

/-! ## Lemmas about `findSub`, `getSubstitution`, `jsReplace` -/

theorem findSub_occursAt {pat body : Str} {k : Nat}
    (h : findSub pat body = some k) : occursAt body pat k := by
  induction body generalizing k with
  | nil =>
    unfold findSub at h
    by_cases hp : pat.isEmpty
    · simp [hp] at h
      subst h
      simp [occursAt, List.isEmpty_iff] at hp ⊢
      simp [hp, List.isPrefixOf]
    · simp [hp] at h
  | cons b bs ih =>
    unfold findSub at h
    by_cases hp : pat.isPrefixOf (b :: bs)
    · simp [hp] at h
      subst h
      simpa [occursAt] using hp
    · simp [hp] at h
      obtain ⟨n, hn, hk⟩ := h
      subst hk
      simpa [occursAt] using ih hn

theorem findSub_least {pat body : Str} {k : Nat}
    (h : findSub pat body = some k) : ∀ j < k, ¬ occursAt body pat j := by
  induction body generalizing k with
  | nil =>
    unfold findSub at h
    by_cases hp : pat.isEmpty
    · simp [hp] at h
      subst h
      intro j hj
      omega
    · simp [hp] at h
  | cons b bs ih =>
    unfold findSub at h
    by_cases hp : pat.isPrefixOf (b :: bs)
    · simp [hp] at h
      subst h
      intro j hj
      omega
    · simp [hp] at h
      obtain ⟨n, hn, hk⟩ := h
      subst hk
      intro j hj
      match j with
      | 0 => simpa [occursAt] using hp
      | j' + 1 =>
        have := ih hn j' (by omega)
        simpa [occursAt] using this

theorem findSub_none {pat body : Str}
    (h : findSub pat body = none) : ∀ j, ¬ occursAt body pat j := by
  induction body with
  | nil =>
    unfold findSub at h
    by_cases hp : pat.isEmpty
    · simp [hp] at h
    · intro j hocc
      simp [occursAt] at hocc
      rw [hocc] at hp
      exact hp rfl
  | cons b bs ih =>
    unfold findSub at h
    by_cases hp : pat.isPrefixOf (b :: bs)
    · simp [hp] at h
    · simp [hp] at h
      intro j hocc
      match j with
      | 0 => exact hp (by simpa [occursAt] using hocc)
      | j' + 1 => exact ih h j' (by simpa [occursAt] using hocc)

theorem jsIncludes_iff (body pat : Str) :
    jsIncludes body pat = true ↔ ∃ k, occursAt body pat k := by
  unfold jsIncludes
  constructor
  · intro h
    obtain ⟨k, hk⟩ := Option.isSome_iff_exists.mp h
    exact ⟨k, findSub_occursAt hk⟩
  · intro ⟨k, hk⟩
    cases hfs : findSub pat body with
    | none => exact absurd hk (findSub_none hfs k)
    | some n => simp [hfs]

theorem getSubstitution_cons_ne (m b a : Str) (c d : Char) (rest : Str)
    (hc : c ≠ dollarChar) :
    getSubstitution m b a (c :: d :: rest) =
      c :: getSubstitution m b a (d :: rest) := by
  conv_lhs => rw [getSubstitution.eq_def]
  simp [hc]

theorem getSubstitution_no_dollar (m b a : Str) {rep : Str}
    (h : dollarChar ∉ rep) : getSubstitution m b a rep = rep := by
  induction rep with
  | nil => rfl
  | cons c rest ih =>
    have hc : c ≠ dollarChar := fun hc => h (hc ▸ List.mem_cons_self c rest)
    cases rest with
    | nil => rfl
    | cons d rest2 =>
      rw [getSubstitution_cons_ne m b a c d rest2 hc,
        ih (fun hm => h (List.mem_cons_of_mem c hm))]

theorem jsReplace_of_findSub {body pat rep : Str} {k : Nat}
    (h : findSub pat body = some k) (hrep : dollarChar ∉ rep) :
    jsReplace body pat rep =
      body.take k ++ rep ++ body.drop (k + pat.length) := by
  simp only [jsReplace, h]
  rw [getSubstitution_no_dollar _ _ _ hrep]

theorem occursAt_decompose {body pat : Str} {k : Nat} (h : occursAt body pat k) :
    body = body.take k ++ pat ++ body.drop (k + pat.length) := by
  unfold occursAt at h
  obtain ⟨t, ht⟩ := List.isPrefixOf_iff_prefix.mp h
  have h2 : body.drop (k + pat.length) = t := by
    rw [← List.drop_drop, ← ht]
    simp
  calc body = body.take k ++ body.drop k := (List.take_append_drop k body).symm
    _ = body.take k ++ (pat ++ t) := by rw [ht]
    _ = body.take k ++ pat ++ t := by rw [List.append_assoc]
    _ = body.take k ++ pat ++ body.drop (k + pat.length) := by rw [h2]

theorem findSub_eq_some_of_least {body pat : Str} {k : Nat}
    (h1 : occursAt body pat k) (h2 : ∀ j < k, ¬ occursAt body pat j) :
    findSub pat body = some k := by
  cases hfs : findSub pat body with
  | none => exact absurd h1 (findSub_none hfs k)
  | some m =>
    have am := findSub_occursAt hfs
    have lm := findSub_least hfs
    have hmk : m = k := by
      rcases Nat.lt_trichotomy m k with hlt | heq | hgt
      · exact absurd am (h2 m hlt)
      · exact heq
      · exact absurd h1 (lm k hgt)
    rw [hmk]

theorem map_eq_self_of {α : Type} {f : α → α} {l : List α}
    (h : ∀ x ∈ l, f x = x) : l.map f = l := by
  induction l with
  | nil => rfl
  | cons a as ih =>
    simp only [List.map_cons, h a (List.mem_cons_self a as),
      ih (fun x hx => h x (List.mem_cons_of_mem a hx))]

/-! ## Claim theorems: C4, C6, C10 -/

/-- C4 counterexample: the claim demands that the replacement be inserted
"literally and verbatim", but `String.prototype.replace` expands
`$`-patterns in the replacement: replacing `"a"` by `"$&$&"` in `"ab"`
produces `"aab"`, not `"$&$&b"`. -/
theorem c4_replace_not_verbatim :
    applySnippetFix (str "ab") (str "a") (str "$&$&") = (str "aab", true) ∧
    applySnippetFix (str "ab") (str "a") (str "$&$&") ≠ (str "$&$&" ++ str "b", true) := by
  constructor <;> decide

/-- C4 (amended): for every body, non-empty snippet occurring in the body,
and replacement containing no dollar character, `applySnippetFix` replaces
exactly the occurrence at the lowest offset by the replacement string,
leaving all other characters unchanged, and reports `applied = true`. -/
theorem c4_applySnippetFix_first_occurrence (body sn rep : Str)
    (hsn : sn ≠ []) (hocc : ∃ k, occursAt body sn k)
    (hrep : dollarChar ∉ rep) :
    ∃ k, occursAt body sn k ∧ (∀ j < k, ¬ occursAt body sn j) ∧
      body = body.take k ++ sn ++ body.drop (k + sn.length) ∧
      applySnippetFix body sn rep =
        (body.take k ++ rep ++ body.drop (k + sn.length), true) := by
  have hinc : jsIncludes body sn = true := (jsIncludes_iff body sn).mpr hocc
  obtain ⟨k, hk⟩ := Option.isSome_iff_exists.mp hinc
  refine ⟨k, findSub_occursAt hk, findSub_least hk, occursAt_decompose (findSub_occursAt hk), ?_⟩
  unfold applySnippetFix
  have hsn' : sn.isEmpty = false := by
    cases sn with
    | nil => exact absurd rfl hsn
    | cons c cs => rfl
  rw [hsn']
  simp only [Bool.false_eq_true, if_false, hinc, if_true]
  rw [jsReplace_of_findSub hk hrep]

/-- Witness for C4 (amended) at `body = "The cat sat cat."`,
`snippet = "cat"`, `replacement = "dog"`. -/
theorem c4_applySnippetFix_first_occurrence_witness :
    (str "cat" ≠ [] ∧ (∃ k, occursAt (str "The cat sat cat.") (str "cat") k) ∧
      dollarChar ∉ str "dog") ∧
    (∃ k, occursAt (str "The cat sat cat.") (str "cat") k ∧
      (∀ j < k, ¬ occursAt (str "The cat sat cat.") (str "cat") j) ∧
      str "The cat sat cat." =
        (str "The cat sat cat.").take k ++ str "cat" ++
          (str "The cat sat cat.").drop (k + (str "cat").length) ∧
      applySnippetFix (str "The cat sat cat.") (str "cat") (str "dog") =
        ((str "The cat sat cat.").take k ++ str "dog" ++
          (str "The cat sat cat.").drop (k + (str "cat").length), true)) :=
  ⟨⟨by decide, ⟨4, by decide⟩, by decide⟩,
    c4_applySnippetFix_first_occurrence (str "The cat sat cat.") (str "cat")
      (str "dog") (by decide) ⟨4, by decide⟩ (by decide)⟩

/-- C6 (confirmed): for `0 ≤ start ≤ end ≤ length body`, the offset splice
returns `body[0:start] ++ replacement ++ body[end:]`; when `start = end` it
is a pure insertion that deletes no characters. -/
theorem c6_spliceAtOffsets_eq (body rep : Str) (s e : Nat)
    (hse : s ≤ e) (hel : e ≤ body.length) :
    spliceAtOffsets body s e rep = body.take s ++ rep ++ body.drop e ∧
    (s = e →
      spliceAtOffsets body s e rep = body.take s ++ rep ++ body.drop s ∧
      (spliceAtOffsets body s e rep).length = body.length + rep.length) := by
  have hsl : s ≤ body.length := le_trans hse hel
  have h1 : jsSubstring body 0 s = body.take s := by
    unfold jsSubstring
    simp [Nat.min_eq_left hsl, Nat.zero_min, Nat.zero_max]
  have h2 : jsSubstring body e body.length = body.drop e := by
    unfold jsSubstring
    simp [Nat.min_eq_left hel, Nat.max_eq_right hel, Nat.min_eq_right hel,
      List.drop_take]
  have hmain : spliceAtOffsets body s e rep = body.take s ++ rep ++ body.drop e := by
    unfold spliceAtOffsets
    rw [h1, h2]
  refine ⟨hmain, fun hseq => ?_⟩
  subst hseq
  refine ⟨hmain, ?_⟩
  rw [hmain]
  simp only [List.length_append, List.length_take, List.length_drop]
  omega

/-- Witness for C6 at `body = "hello"`, `start = 2`, `end = 2`,
`replacement = "XY"`. -/
theorem c6_spliceAtOffsets_eq_witness :
    (2 ≤ 2 ∧ 2 ≤ (str "hello").length) ∧
    (spliceAtOffsets (str "hello") 2 2 (str "XY") =
        (str "hello").take 2 ++ str "XY" ++ (str "hello").drop 2 ∧
      (2 = 2 →
        spliceAtOffsets (str "hello") 2 2 (str "XY") =
          (str "hello").take 2 ++ str "XY" ++ (str "hello").drop 2 ∧
        (spliceAtOffsets (str "hello") 2 2 (str "XY")).length =
          (str "hello").length + (str "XY").length)) :=
  ⟨⟨le_refl 2, by decide⟩,
    c6_spliceAtOffsets_eq (str "hello") (str "XY") 2 2 (le_refl 2) (by decide)⟩

/-- C10 (confirmed): when the issue's replacement is absent or empty,
`handleConfirmFix` is a complete no-op: the state (sections and pending
issue list) is returned unchanged, so an empty replacement can never delete
its snippet. -/
theorem c10_empty_replacement_noop (st : AppState) (issue : AnalysisIssue)
    (h : issue.replacement = none ∨ issue.replacement = some []) :
    handleConfirmFix st issue = st := by
  have hf : jsFalsyStr issue.replacement = true := by
    rcases h with h | h <;> rw [h] <;> rfl
  unfold handleConfirmFix
  rw [hf]
  simp

/-- Witness for C10 at a concrete state and issue with an empty
replacement. -/
theorem c10_empty_replacement_noop_witness :
    ((⟨str "i1", some (str "cat"), some []⟩ : AnalysisIssue).replacement = none ∨
      (⟨str "i1", some (str "cat"), some []⟩ : AnalysisIssue).replacement = some []) ∧
    handleConfirmFix
        ⟨[⟨str "a", str "T", str "the cat"⟩], some [⟨str "i1", some (str "cat"), some []⟩]⟩
        ⟨str "i1", some (str "cat"), some []⟩ =
      ⟨[⟨str "a", str "T", str "the cat"⟩], some [⟨str "i1", some (str "cat"), some []⟩]⟩ :=
  ⟨Or.inr rfl,
    c10_empty_replacement_noop
      ⟨[⟨str "a", str "T", str "the cat"⟩], some [⟨str "i1", some (str "cat"), some []⟩]⟩
      ⟨str "i1", some (str "cat"), some []⟩ (Or.inr rfl)⟩

/-! ## Claim theorems: C1, C3, C7 -/

theorem isEmpty_false_of_ne {l : Str} (h : l ≠ []) : l.isEmpty = false := by
  cases l with
  | nil => exact absurd rfl h
  | cons c cs => rfl

theorem handleConfirmFix_sections_eq (st : AppState) (issue : AnalysisIssue)
    (sn rep : Str) (hsn : issue.snippet = some sn)
    (hrep : issue.replacement = some rep) (hsne : sn ≠ []) (hrepe : rep ≠ []) :
    handleConfirmFix st issue =
      { sections := st.sections.map (fun s =>
          if jsIncludes s.content sn then
            { s with content := jsReplace s.content sn rep }
          else s),
        analysisResult :=
          match st.analysisResult with
          | none => none
          | some issues => some (issues.filter (fun i => !(i.id == issue.id))) } := by
  unfold handleConfirmFix
  rw [hsn, hrep]
  simp [jsFalsyStr, isEmpty_false_of_ne hsne, isEmpty_false_of_ne hrepe]

/-- C1 counterexample: with two sections whose contents both contain the
snippet `"cat"`, confirming the fix rewrites the snippet in BOTH sections,
so a later section whose content contains the snippet is not left
unchanged. -/
theorem c1_fix_hits_every_matching_section :
    (handleConfirmFix
        ⟨[⟨str "a", str "A", str "x cat y"⟩, ⟨str "b", str "B", str "z cat w"⟩], none⟩
        ⟨str "i1", some (str "cat"), some (str "dog")⟩).sections =
      [⟨str "a", str "A", str "x dog y"⟩, ⟨str "b", str "B", str "z dog w"⟩] ∧
    (handleConfirmFix
        ⟨[⟨str "a", str "A", str "x cat y"⟩, ⟨str "b", str "B", str "z cat w"⟩], none⟩
        ⟨str "i1", some (str "cat"), some (str "dog")⟩).sections[1]? ≠
      some ⟨str "b", str "B", str "z cat w"⟩ := by
  constructor <;> decide

/-- C1 (amended): applying a snippet fix replaces the snippet in EVERY
section (in document order) whose content contains it — in each such
section the occurrence at the lowest offset is replaced — and leaves every
section whose content does not contain it unchanged; ids and titles of all
sections are preserved. -/
theorem c1_fix_applied_per_matching_section (st : AppState)
    (issue : AnalysisIssue) (sn rep : Str) (hsn : issue.snippet = some sn)
    (hrep : issue.replacement = some rep) (hsne : sn ≠ []) (hrepe : rep ≠ []) :
    (handleConfirmFix st issue).sections.length = st.sections.length ∧
    ∀ (i : Nat) (s : PaperSection), st.sections[i]? = some s →
      ∃ s' : PaperSection, (handleConfirmFix st issue).sections[i]? = some s' ∧
        s'.id = s.id ∧ s'.title = s.title ∧
        ((∀ j, ¬ occursAt s.content sn j) → s' = s) ∧
        (∀ k, occursAt s.content sn k → (∀ j < k, ¬ occursAt s.content sn j) →
          s'.content = s.content.take k ++
            getSubstitution sn (s.content.take k) (s.content.drop (k + sn.length)) rep ++
            s.content.drop (k + sn.length)) := by
  rw [handleConfirmFix_sections_eq st issue sn rep hsn hrep hsne hrepe]
  refine ⟨by simp, ?_⟩
  intro i s hs
  refine ⟨_, by rw [List.getElem?_map, hs]; rfl, ?_, ?_, ?_, ?_⟩
  · by_cases hinc : jsIncludes s.content sn <;> simp [hinc]
  · by_cases hinc : jsIncludes s.content sn <;> simp [hinc]
  · intro hno
    have hfalse : jsIncludes s.content sn = false := by
      cases hb : jsIncludes s.content sn with
      | false => rfl
      | true =>
        obtain ⟨k, hk⟩ := (jsIncludes_iff _ _).mp hb
        exact absurd hk (hno k)
    simp [hfalse]
  · intro k hocc hleast
    have hfsk : findSub sn s.content = some k := findSub_eq_some_of_least hocc hleast
    have hinc : jsIncludes s.content sn = true := by
      unfold jsIncludes
      rw [hfsk]
      rfl
    simp only [hinc, if_true]
    simp only [jsReplace, hfsk]

/-- Witness for C1 (amended) at a two-section document whose sections both
contain the snippet. -/
theorem c1_fix_applied_per_matching_section_witness :
    ((⟨str "i1", some (str "cat"), some (str "dog")⟩ : AnalysisIssue).snippet = some (str "cat") ∧
      (⟨str "i1", some (str "cat"), some (str "dog")⟩ : AnalysisIssue).replacement = some (str "dog") ∧
      str "cat" ≠ [] ∧ str "dog" ≠ []) ∧
    ((handleConfirmFix
        ⟨[⟨str "a", str "A", str "x cat y"⟩, ⟨str "b", str "B", str "z cat w"⟩], none⟩
        ⟨str "i1", some (str "cat"), some (str "dog")⟩).sections.length =
      ([⟨str "a", str "A", str "x cat y"⟩, ⟨str "b", str "B", str "z cat w"⟩] : List PaperSection).length ∧
    ∀ (i : Nat) (s : PaperSection), ([⟨str "a", str "A", str "x cat y"⟩, ⟨str "b", str "B", str "z cat w"⟩] : List PaperSection)[i]? = some s →
      ∃ s' : PaperSection, (handleConfirmFix
          ⟨[⟨str "a", str "A", str "x cat y"⟩, ⟨str "b", str "B", str "z cat w"⟩], none⟩
          ⟨str "i1", some (str "cat"), some (str "dog")⟩).sections[i]? = some s' ∧
        s'.id = s.id ∧ s'.title = s.title ∧
        ((∀ j, ¬ occursAt s.content (str "cat") j) → s' = s) ∧
        (∀ k, occursAt s.content (str "cat") k →
          (∀ j < k, ¬ occursAt s.content (str "cat") j) →
          s'.content = s.content.take k ++
            getSubstitution (str "cat") (s.content.take k)
              (s.content.drop (k + (str "cat").length)) (str "dog") ++
            s.content.drop (k + (str "cat").length))) :=
  ⟨⟨rfl, rfl, by decide, by decide⟩,
    c1_fix_applied_per_matching_section
      ⟨[⟨str "a", str "A", str "x cat y"⟩, ⟨str "b", str "B", str "z cat w"⟩], none⟩
      ⟨str "i1", some (str "cat"), some (str "dog")⟩
      (str "cat") (str "dog") rfl rfl (by decide) (by decide)⟩

/-- C3 counterexample: with a single section not containing the snippet and
the issue pending in the analysis result, confirming the fix leaves the
sections unchanged but REMOVES the issue from the pending list (the filter
runs unconditionally; there is no applied-check before removal). -/
theorem c3_stale_issue_still_removed :
    (handleConfirmFix
        ⟨[⟨str "a", str "T", str "hello"⟩],
          some [⟨str "i1", some (str "zzz"), some (str "w")⟩]⟩
        ⟨str "i1", some (str "zzz"), some (str "w")⟩).sections =
      [⟨str "a", str "T", str "hello"⟩] ∧
    (handleConfirmFix
        ⟨[⟨str "a", str "T", str "hello"⟩],
          some [⟨str "i1", some (str "zzz"), some (str "w")⟩]⟩
        ⟨str "i1", some (str "zzz"), some (str "w")⟩).analysisResult = some [] ∧
    some ([⟨str "i1", some (str "zzz"), some (str "w")⟩] : List AnalysisIssue) ≠
      some ([] : List AnalysisIssue) := by
  refine ⟨?_, ?_, ?_⟩ <;> decide

/-- C3 (amended): when no section's content contains the (non-empty)
snippet, the snippet-fix operation leaves every section's content unchanged,
but the issue IS removed from the caller's pending issue list all the same:
the resulting pending list is the old one with every issue of that id
filtered out. -/
theorem c3_noop_on_sections_but_issue_removed (st : AppState)
    (issue : AnalysisIssue) (sn rep : Str) (hsn : issue.snippet = some sn)
    (hrep : issue.replacement = some rep) (hsne : sn ≠ []) (hrepe : rep ≠ [])
    (hnone : ∀ s ∈ st.sections, ∀ j, ¬ occursAt s.content sn j) :
    (handleConfirmFix st issue).sections = st.sections ∧
    ∀ l : List AnalysisIssue, st.analysisResult = some l →
      ∃ l', (handleConfirmFix st issue).analysisResult = some l' ∧
        l' = l.filter (fun i => !(i.id == issue.id)) ∧
        ∀ i ∈ l', i.id ≠ issue.id := by
  rw [handleConfirmFix_sections_eq st issue sn rep hsn hrep hsne hrepe]
  constructor
  · apply map_eq_self_of
    intro s hs
    have hfalse : jsIncludes s.content sn = false := by
      cases hb : jsIncludes s.content sn with
      | false => rfl
      | true =>
        obtain ⟨k, hk⟩ := (jsIncludes_iff _ _).mp hb
        exact absurd hk (hnone s hs k)
    simp [hfalse]
  · intro l hl
    rw [hl]
    refine ⟨_, rfl, rfl, ?_⟩
    intro i hi
    have := (List.mem_filter.mp hi).2
    simpa using this

/-- Witness for C3 (amended) at a concrete stale issue. -/
theorem c3_noop_on_sections_but_issue_removed_witness :
    ((⟨str "i1", some (str "zzz"), some (str "w")⟩ : AnalysisIssue).snippet = some (str "zzz") ∧
      (⟨str "i1", some (str "zzz"), some (str "w")⟩ : AnalysisIssue).replacement = some (str "w") ∧
      str "zzz" ≠ [] ∧ str "w" ≠ [] ∧
      (∀ s ∈ ([⟨str "a", str "T", str "hello"⟩] : List PaperSection), ∀ j,
        ¬ occursAt s.content (str "zzz") j)) ∧
    ((handleConfirmFix
        ⟨[⟨str "a", str "T", str "hello"⟩],
          some [⟨str "i1", some (str "zzz"), some (str "w")⟩]⟩
        ⟨str "i1", some (str "zzz"), some (str "w")⟩).sections =
      [⟨str "a", str "T", str "hello"⟩] ∧
    ∀ l, (some [⟨str "i1", some (str "zzz"), some (str "w")⟩] : Option (List AnalysisIssue)) = some l →
      ∃ l', (handleConfirmFix
          ⟨[⟨str "a", str "T", str "hello"⟩],
            some [⟨str "i1", some (str "zzz"), some (str "w")⟩]⟩
          ⟨str "i1", some (str "zzz"), some (str "w")⟩).analysisResult = some l' ∧
        l' = l.filter (fun i => !(i.id == (⟨str "i1", some (str "zzz"), some (str "w")⟩ : AnalysisIssue).id)) ∧
        ∀ i ∈ l', i.id ≠ (⟨str "i1", some (str "zzz"), some (str "w")⟩ : AnalysisIssue).id) :=
  ⟨⟨rfl, rfl, by decide, by decide,
      by
        intro s hs j
        have hm : s = ⟨str "a", str "T", str "hello"⟩ := List.mem_singleton.mp hs
        subst hm
        exact findSub_none (by decide) j⟩,
    c3_noop_on_sections_but_issue_removed
      ⟨[⟨str "a", str "T", str "hello"⟩],
        some [⟨str "i1", some (str "zzz"), some (str "w")⟩]⟩
      ⟨str "i1", some (str "zzz"), some (str "w")⟩ (str "zzz") (str "w")
      rfl rfl (by decide) (by decide)
      (by
        intro s hs j
        have hm : s = ⟨str "a", str "T", str "hello"⟩ := List.mem_singleton.mp hs
        subst hm
        exact findSub_none (by decide) j)⟩

/-- C7 (confirmed): when the splice is bound to one specific section id,
only the content of sections with that id changes: the length and order of
the section list are unchanged, each section's id and title are preserved,
every section whose id differs from the target is unchanged, and no
re-sectioning occurs (each result section is determined pointwise from the
corresponding input section). -/
theorem c7_section_splice_frame (now : Nat) (fullDoc : Bool)
    (activeId : Str) (secs : List PaperSection) (sel : Selection) (seg : Str)
    (sid : Str) (hsid : sel.sectionId = some sid) (hne : sid ≠ []) :
    (updateDocumentAtSelection now fullDoc activeId secs sel seg).length = secs.length ∧
    ∀ (i : Nat) (s : PaperSection), secs[i]? = some s →
      ∃ s' : PaperSection, (updateDocumentAtSelection now fullDoc activeId secs sel seg)[i]? = some s' ∧
        s'.id = s.id ∧ s'.title = s.title ∧
        (s.id ≠ sid → s' = s) ∧
        (s.id = sid →
          s'.content = spliceAtOffsets s.content sel.start sel.stop seg) := by
  have hred : updateDocumentAtSelection now fullDoc activeId secs sel seg =
      secs.map (fun s =>
        if s.id == sid then
          { s with content := spliceAtOffsets s.content sel.start sel.stop seg }
        else s) := by
    unfold updateDocumentAtSelection
    rw [hsid]
    simp [isEmpty_false_of_ne hne, spliceAtOffsets]
  rw [hred]
  refine ⟨by simp, ?_⟩
  intro i s hs
  refine ⟨_, by rw [List.getElem?_map, hs]; rfl, ?_, ?_, ?_, ?_⟩
  · by_cases hid : s.id == sid <;> simp [hid]
  · by_cases hid : s.id == sid <;> simp [hid]
  · intro hnei
    have : (s.id == sid) = false := beq_eq_false_iff_ne.mpr hnei
    simp [this]
  · intro heq
    have : (s.id == sid) = true := beq_iff_eq.mpr heq
    simp [this]

/-- Witness for C7 at a two-section document targeting the second
section. -/
theorem c7_section_splice_frame_witness :
    ((⟨str "sel", 1, 3, some (str "b")⟩ : Selection).sectionId = some (str "b") ∧
      str "b" ≠ []) ∧
    ((updateDocumentAtSelection 0 false (str "a")
        [⟨str "a", str "A", str "alpha"⟩, ⟨str "b", str "B", str "bravo"⟩]
        ⟨str "sel", 1, 3, some (str "b")⟩ (str "XY")).length =
      ([⟨str "a", str "A", str "alpha"⟩, ⟨str "b", str "B", str "bravo"⟩] : List PaperSection).length ∧
    ∀ (i : Nat) (s : PaperSection), ([⟨str "a", str "A", str "alpha"⟩, ⟨str "b", str "B", str "bravo"⟩] : List PaperSection)[i]? = some s →
      ∃ s' : PaperSection, (updateDocumentAtSelection 0 false (str "a")
          [⟨str "a", str "A", str "alpha"⟩, ⟨str "b", str "B", str "bravo"⟩]
          ⟨str "sel", 1, 3, some (str "b")⟩ (str "XY"))[i]? = some s' ∧
        s'.id = s.id ∧ s'.title = s.title ∧
        (s.id ≠ str "b" → s' = s) ∧
        (s.id = str "b" →
          s'.content = spliceAtOffsets s.content 1 3 (str "XY"))) :=
  ⟨⟨rfl, by decide⟩,
    c7_section_splice_frame 0 false (str "a")
      [⟨str "a", str "A", str "alpha"⟩, ⟨str "b", str "B", str "bravo"⟩]
      ⟨str "sel", 1, 3, some (str "b")⟩ (str "XY") (str "b") rfl (by decide)⟩

/-! ## Heading-line characterisation (C5) -/

theorem takeWhile_append_drop_self (p : Char → Bool) (t : Str) :
    t.takeWhile p ++ t.drop (t.takeWhile p).length = t := by
  induction t with
  | nil => rfl
  | cons c cs ih =>
    by_cases hc : p c
    · simp [List.takeWhile_cons, hc, ih]
    · simp [List.takeWhile_cons, hc]

theorem takeWhile_head_hash (t : Str) :
    (t.takeWhile (fun c => c = hashChar)).isEmpty = false ↔
      t.take 1 = [hashChar] := by
  cases t with
  | nil => simp
  | cons c t' =>
    by_cases hc : c = hashChar
    · subst hc
      simp [List.takeWhile_cons]
    · simp [List.takeWhile_cons, hc]

theorem takeWhile_two_hash (t : Str) :
    2 ≤ (t.takeWhile (fun c => c = hashChar)).length ↔
      t.take 2 = [hashChar, hashChar] := by
  cases t with
  | nil => simp
  | cons c t' =>
    by_cases hc : c = hashChar
    · subst hc
      cases t' with
      | nil => simp [List.takeWhile_cons]
      | cons d t'' =>
        by_cases hd : d = hashChar
        · subst hd
          simp [List.takeWhile_cons]
        · simp [List.takeWhile_cons, hd]
    · simp [List.takeWhile_cons, hc]

theorem headD_mem {l : Str} (h : l ≠ []) (d : Char) : l.headD d ∈ l := by
  cases l with
  | nil => exact absurd rfl h
  | cons a as => exact List.mem_cons_self _ _

theorem head_dropWhile_false {p : Char → Bool} {l : Str}
    (h : l.dropWhile p ≠ []) (d : Char) :
    p ((l.dropWhile p).headD d) = false := by
  induction l with
  | nil => exact absurd rfl h
  | cons a as ih =>
    rw [List.dropWhile_cons] at h ⊢
    by_cases hp : p a = true
    · rw [if_pos hp] at h ⊢
      exact ih h
    · rw [if_neg hp] at h ⊢
      show p a = false
      exact Bool.eq_false_iff.mpr hp

theorem all_of_dropWhile_nil {p : Char → Bool} {l : Str}
    (h : l.dropWhile p = []) : ∀ c ∈ l, p c = true := by
  induction l with
  | nil => intro c hc; simp at hc
  | cons a as ih =>
    rw [List.dropWhile_cons] at h
    by_cases hp : p a = true
    · rw [if_pos hp] at h
      intro c hc
      rcases List.mem_cons.mp hc with rfl | hc
      · exact hp
      · exact ih h c hc
    · rw [if_neg hp] at h
      exact absurd h (List.cons_ne_nil _ _)

theorem mem_of_mem_dropWhile {p : Char → Bool} {c : Char} {l : Str}
    (h : c ∈ l.dropWhile p) : c ∈ l := by
  induction l with
  | nil => simpa using h
  | cons a as ih =>
    rw [List.dropWhile_cons] at h
    by_cases hp : p a
    · rw [if_pos hp] at h
      exact List.mem_cons_of_mem _ (ih h)
    · rw [if_neg hp] at h
      exact h

theorem lineHeaderMatch1_isSome (line : Str) :
    (lineHeaderMatch1 line).isSome = true ↔
      ((jsTrimStart line).take 1 = [hashChar] ∧ 2 ≤ (jsTrimStart line).length ∧
        (∀ c ∈ jsTrim (hashRest line), isLineTerm c = false) ∧
        (jsTrim (hashRest line) = [] → hashRest line = [] ∨
          (∃ c ∈ hashRest line, isLineTerm c = false) ∨
          (jsTrimStart line).take 2 = [hashChar, hashChar])) := by
  unfold lineHeaderMatch1 jsTrimStart hashRest
  simp only []
  set DW := line.dropWhile isJsWs with hDW
  set TW := DW.takeWhile (fun c => c = hashChar) with hTW
  set R := DW.drop TW.length with hRdef
  have hpre : TW <+: DW := List.takeWhile_prefix _
  have hlen : TW.length ≤ DW.length := hpre.length_le
  have hhead : TW.isEmpty = false ↔ DW.take 1 = [hashChar] := takeWhile_head_hash DW
  have htwo : 2 ≤ TW.length ↔ DW.take 2 = [hashChar, hashChar] := takeWhile_two_hash DW
  have hRlen : R.length = DW.length - TW.length := List.length_drop _ _
  by_cases h1 : TW.isEmpty = true
  · rw [if_pos h1]
    simp only [Option.isSome_none, Bool.false_eq_true, false_iff]
    intro hand
    have h1' := hhead.mpr hand.1
    rw [h1] at h1'
    exact Bool.noConfusion h1'
  · rw [if_neg h1]
    have hh1 : TW.isEmpty = false := by revert h1; cases TW.isEmpty <;> simp
    have hDW1 : DW.take 1 = [hashChar] := hhead.mp hh1
    have hTWne : TW ≠ [] := by intro hx; rw [hx] at hh1; simp at hh1
    have hTl : 0 < TW.length := List.length_pos.mpr hTWne
    by_cases h2 : R.isEmpty = true
    · rw [if_pos h2]
      have hR0 : R = [] := List.isEmpty_iff.mp h2
      have hRl0 : R.length = 0 := by rw [hR0]; rfl
      have hBnil : jsTrim R = [] := by rw [hR0]; rfl
      by_cases h3 : 2 ≤ TW.length
      · rw [if_pos h3]
        simp only [Option.isSome_some, true_iff]
        refine ⟨hDW1, by omega, ?_, ?_⟩
        · intro c hc
          rw [hBnil] at hc
          simp at hc
        · intro _
          exact Or.inl hR0
      · rw [if_neg h3]
        simp only [Option.isSome_none, Bool.false_eq_true, false_iff]
        intro hand
        obtain ⟨-, hlen2, -, -⟩ := hand
        exact h3 (by omega)
    · rw [if_neg h2]
      have hRne : R ≠ [] := fun hx => h2 (by rw [hx]; rfl)
      have hRl : 0 < R.length := List.length_pos.mpr hRne
      by_cases h4 : (jsTrim R).isEmpty = true
      · rw [if_pos h4]
        have hBnil : jsTrim R = [] := List.isEmpty_iff.mp h4
        set RD := R.reverse.dropWhile isLineTerm with hRD
        by_cases h5 : RD.isEmpty = true
        · rw [if_pos h5]
          have hRDnil : RD = [] := List.isEmpty_iff.mp h5
          by_cases h6 : 2 ≤ TW.length
          · rw [if_pos h6]
            simp only [Option.isSome_some, true_iff]
            refine ⟨hDW1, by omega, ?_, ?_⟩
            · intro c hc
              rw [hBnil] at hc
              simp at hc
            · intro _
              exact Or.inr (Or.inr (htwo.mp h6))
          · rw [if_neg h6]
            simp only [Option.isSome_none, Bool.false_eq_true, false_iff]
            intro hand
            rcases hand.2.2.2 hBnil with hx | ⟨c, hc, hct⟩ | hx
            · exact hRne hx
            · have := all_of_dropWhile_nil hRDnil c (List.mem_reverse.mpr hc)
              rw [this] at hct
              exact Bool.noConfusion hct
            · exact h6 (htwo.mpr hx)
        · rw [if_neg h5]
          simp only [Option.isSome_some, true_iff]
          have hRDne : RD ≠ [] := fun hx => h5 (by rw [hx]; rfl)
          refine ⟨hDW1, by omega, ?_, ?_⟩
          · intro c hc
            rw [hBnil] at hc
            simp at hc
          · intro _
            refine Or.inr (Or.inl ⟨RD.headD ' ', ?_, ?_⟩)
            · exact List.mem_reverse.mp (mem_of_mem_dropWhile (headD_mem hRDne ' '))
            · exact head_dropWhile_false hRDne ' '
      · rw [if_neg h4]
        have hBne : jsTrim R ≠ [] := fun hx => h4 (by rw [hx]; rfl)
        by_cases h7 : (jsTrim R).any isLineTerm = true
        · rw [if_pos h7]
          simp only [Option.isSome_none, Bool.false_eq_true, false_iff]
          intro hand
          obtain ⟨c, hc, hct⟩ := List.any_eq_true.mp h7
          rw [hand.2.2.1 c hc] at hct
          exact Bool.noConfusion hct
        · rw [if_neg h7]
          simp only [Option.isSome_some, true_iff]
          refine ⟨hDW1, by omega, ?_, ?_⟩
          · intro c hc
            by_contra hcc
            apply h7
            apply List.any_eq_true.mpr
            exact ⟨c, hc, by revert hcc; cases isLineTerm c <;> simp⟩
          · intro hx
            exact absurd hx hBne

theorem lineHeaderMatch2_isSome (line : Str) :
    (lineHeaderMatch2 line).isSome = true ↔
      (4 ≤ line.length ∧ ∀ c ∈ line, isUpperChar c = true ∨ isJsWs c = true) := by
  unfold lineHeaderMatch2
  by_cases hc : (4 ≤ line.length && line.all (fun c => isUpperChar c || isJsWs c)) = true
  · rw [if_pos hc]
    simp only [Bool.and_eq_true, decide_eq_true_eq, List.all_eq_true,
      Bool.or_eq_true] at hc
    simpa using hc
  · rw [if_neg hc]
    simp only [Bool.and_eq_true, decide_eq_true_eq, List.all_eq_true,
      Bool.or_eq_true] at hc
    simpa using hc

theorem headerTitle_isSome (line : Str) :
    (headerTitle line).isSome = true ↔
      (lineHeaderMatch1 line).isSome = true ∨ (lineHeaderMatch2 line).isSome = true := by
  unfold headerTitle
  cases lineHeaderMatch1 line with
  | some p => simp
  | none => cases lineHeaderMatch2 line with
    | some g => simp
    | none => simp

/-- C5 counterexample: the line consisting of two hash characters is
classified as a heading line by the code (the lazy `(.+?)` group captures
the second hash), although it has no non-empty trimmed text after its
leading hashes and is not an uppercase heading, so the claim's
characterisation calls it a content line. -/
theorem c5_hash_only_line_is_heading :
    specIsHeadingLine (str "##") = false ∧
    (headerTitle (str "##")).isSome = true ∧
    (headerTitle (str "    ")).isSome = true ∧
    specIsHeadingLine (str "    ") = false := by
  refine ⟨?_, ?_, ?_, ?_⟩ <;> decide

/-- C5 (amended): a physical line is classified as a heading line iff either
(a) after removing leading whitespace it starts with a hash character, has
at least two characters in total, the trimmed rest of the line (what
follows the maximal run of hashes, with surrounding whitespace removed)
contains no line terminator (a lone CR, LS or PS survives the line split
and the dot of the lazy group cannot match it), and, when that trimmed rest
is empty, the rest itself is empty, or contains some non-terminator
character, or the line has at least two leading hashes (so `##`, a hash
followed by spaces, and `#` followed by a space and a CR all qualify, while
`#` followed by a lone CR, or hash-text containing an embedded LS, do not);
or (b) the entire raw line has at least 4 characters, all of which are
uppercase letters or whitespace (so trailing whitespace counts towards the
4, and whitespace-only lines of length ≥ 4 qualify); every other line is a
content line. -/
theorem c5_heading_line_characterisation (line : Str) :
    (headerTitle line).isSome = true ↔
      (((jsTrimStart line).take 1 = [hashChar] ∧ 2 ≤ (jsTrimStart line).length ∧
        (∀ c ∈ jsTrim (hashRest line), isLineTerm c = false) ∧
        (jsTrim (hashRest line) = [] → hashRest line = [] ∨
          (∃ c ∈ hashRest line, isLineTerm c = false) ∨
          (jsTrimStart line).take 2 = [hashChar, hashChar])) ∨
       (4 ≤ line.length ∧ ∀ c ∈ line, isUpperChar c = true ∨ isJsWs c = true)) := by
  rw [headerTitle_isSome, lineHeaderMatch1_isSome, lineHeaderMatch2_isSome]

/-! ## Sectionizer structural lemmas -/

theorem listIsEmpty_false {α : Type} {l : List α} (h : l ≠ []) :
    l.isEmpty = false := by
  cases l with
  | nil => exact absurd rfl h
  | cons c cs => rfl

theorem splitRNLines_ne_nil (t : Str) : splitRNLines t ≠ [] := by
  match t with
  | [] => simp [splitRNLines]
  | [c] =>
    unfold splitRNLines
    split_ifs <;> simp
  | c :: d :: rest =>
    unfold splitRNLines
    split_ifs
    · simp
    · simp
    · cases h : splitRNLines (d :: rest) <;> simp

theorem lineHeaderMatch1_g_ne {line : Str} {g1 g2 : Str}
    (h : lineHeaderMatch1 line = some (g1, g2)) : g1 ≠ [] ∧ g2 ≠ [] := by
  unfold lineHeaderMatch1 at h
  simp only [] at h
  set DW := line.dropWhile isJsWs with hDW
  set TW := DW.takeWhile (fun c => c = hashChar) with hTW
  set R := DW.drop TW.length with hRdef
  by_cases h1 : TW.isEmpty = true
  · rw [if_pos h1] at h
    exact Option.noConfusion h
  · rw [if_neg h1] at h
    have hTWne : TW ≠ [] := fun hx => by rw [hx] at h1; exact h1 rfl
    by_cases h2 : R.isEmpty = true
    · rw [if_pos h2] at h
      by_cases h3 : 2 ≤ TW.length
      · rw [if_pos h3] at h
        rw [Option.some.injEq, Prod.mk.injEq] at h
        obtain ⟨hg1, hg2⟩ := h
        constructor
        · rw [← hg1]
          apply List.length_pos.mp
          rw [List.length_take]
          omega
        · rw [← hg2]
          exact List.cons_ne_nil _ _
      · rw [if_neg h3] at h
        exact Option.noConfusion h
    · rw [if_neg h2] at h
      by_cases h4 : (jsTrim R).isEmpty = true
      · rw [if_pos h4] at h
        set RD := R.reverse.dropWhile isLineTerm with hRD
        by_cases h5 : RD.isEmpty = true
        · rw [if_pos h5] at h
          by_cases h6 : 2 ≤ TW.length
          · rw [if_pos h6] at h
            rw [Option.some.injEq, Prod.mk.injEq] at h
            obtain ⟨hg1, hg2⟩ := h
            constructor
            · rw [← hg1]
              apply List.length_pos.mp
              rw [List.length_take]
              omega
            · rw [← hg2]
              exact List.cons_ne_nil _ _
          · rw [if_neg h6] at h
            exact Option.noConfusion h
        · rw [if_neg h5] at h
          rw [Option.some.injEq, Prod.mk.injEq] at h
          obtain ⟨hg1, hg2⟩ := h
          constructor
          · rw [← hg1]
            exact hTWne
          · rw [← hg2]
            exact List.cons_ne_nil _ _
      · rw [if_neg h4] at h
        by_cases h7 : (jsTrim R).any isLineTerm = true
        · rw [if_pos h7] at h
          exact Option.noConfusion h
        · rw [if_neg h7] at h
          rw [Option.some.injEq, Prod.mk.injEq] at h
          obtain ⟨hg1, hg2⟩ := h
          constructor
          · rw [← hg1]
            exact hTWne
          · rw [← hg2]
            intro hx
            rw [hx] at h4
            exact h4 rfl

theorem lineHeaderMatch2_g_ne {line : Str} {g : Str}
    (h : lineHeaderMatch2 line = some g) : g ≠ [] := by
  unfold lineHeaderMatch2 at h
  split_ifs at h with hc
  · rw [Option.some.injEq] at h
    simp only [Bool.and_eq_true, decide_eq_true_eq] at hc
    rw [← h]
    apply List.length_pos.mp
    rw [List.length_drop]
    have : min (line.takeWhile isJsWs).length (line.length - 4) ≤ line.length - 4 :=
      Nat.min_le_right _ _
    omega

theorem headerTitle_ne_nil {line g : Str} (h : headerTitle line = some g) :
    g ≠ [] := by
  unfold headerTitle at h
  cases hm1 : lineHeaderMatch1 line with
  | some p =>
    rw [hm1] at h
    simp only [Option.some.injEq] at h
    obtain ⟨g1, g2⟩ := p
    have hne := lineHeaderMatch1_g_ne hm1
    rw [← h]
    by_cases hg2 : g2.isEmpty
    · simp only [hg2, if_true]
      exact hne.1
    · simp only [hg2, Bool.false_eq_true, if_false]
      exact hne.2
  | none =>
    rw [hm1] at h
    cases hm2 : lineHeaderMatch2 line with
    | some g1 =>
      rw [hm2] at h
      simp only [Option.some.injEq] at h
      rw [← h]
      exact lineHeaderMatch2_g_ne hm2
    | none =>
      rw [hm2] at h
      simp at h

theorem modStep_nontrivial (now : Nat) (st : ModState) (l : Str) :
    (modStep now st l).secs ≠ [] ∨ (modStep now st l).currentContent ≠ [] ∨
      (modStep now st l).currentHeader ≠ [] := by
  unfold modStep
  cases hl : headerTitle l with
  | some g =>
    right; right
    simpa using headerTitle_ne_nil hl
  | none =>
    right; left
    simp

theorem modFold_nontrivial (now : Nat) (L : List Str) :
    ∀ st : ModState,
      (L ≠ [] ∨ (st.secs ≠ [] ∨ st.currentContent ≠ [] ∨ st.currentHeader ≠ [])) →
      ((modFold now st L).secs ≠ [] ∨ (modFold now st L).currentContent ≠ [] ∨
        (modFold now st L).currentHeader ≠ []) := by
  induction L with
  | nil =>
    intro st h
    rcases h with h | h
    · exact absurd rfl h
    · exact h
  | cons l ls ih =>
    intro st _
    exact ih (modStep now st l) (Or.inr (modStep_nontrivial now st l))

theorem modFinal_secs_ne (now : Nat) (st : ModState)
    (h : st.secs ≠ [] ∨ st.currentContent ≠ [] ∨ st.currentHeader ≠ []) :
    (modFinal now st).secs ≠ [] := by
  unfold modFinal
  by_cases hcond : (!st.currentContent.isEmpty || !st.currentHeader.isEmpty) = true
  · rw [if_pos hcond]
    unfold pushSection
    simp
  · rw [if_neg hcond]
    have hc : st.currentContent = [] := by
      by_contra hne
      exact hcond (by simp [listIsEmpty_false hne])
    have hh : st.currentHeader = [] := by
      by_contra hne
      exact hcond (by simp [listIsEmpty_false hne])
    rcases h with h | h | h
    · exact h
    · exact absurd hc h
    · exact absurd hh h

theorem modularizeText_scan (now : Nat) (text : Str) :
    modularizeText now text =
      (modFinal now (modFold now ⟨[], [], [], 0⟩ (splitRNLines text))).secs ∧
    modularizeText now text ≠ [] := by
  have hNT := modFold_nontrivial now (splitRNLines text) ⟨[], [], [], 0⟩
    (Or.inl (splitRNLines_ne_nil text))
  have hne := modFinal_secs_ne now _ hNT
  constructor
  · unfold modularizeText
    simp only [listIsEmpty_false hne, Bool.false_eq_true, if_false]
  · unfold modularizeText
    simp only [listIsEmpty_false hne, Bool.false_eq_true, if_false]
    exact hne

/-! ## Title tracking through the sectionizer fold (C9) -/

theorem modFold_titles_with_header (now : Nat) (L : List Str) :
    ∀ (hdr : Str), hdr ≠ [] → ∀ (buf : List Str) (secs : List PaperSection) (cnt : Nat),
      ((modFinal now (modFold now ⟨hdr, buf, secs, cnt⟩ L)).secs).map PaperSection.title =
        secs.map PaperSection.title ++ hdr :: L.filterMap headerTitle := by
  induction L with
  | nil =>
    intro hdr hne buf secs cnt
    unfold modFold modFinal
    have hcond : (!buf.isEmpty || !(⟨hdr, buf, secs, cnt⟩ : ModState).currentHeader.isEmpty) = true := by
      simp [listIsEmpty_false hne]
    simp only []
    rw [if_pos (by simpa using hcond)]
    unfold pushSection
    simp [listIsEmpty_false hne]
  | cons l ls ih =>
    intro hdr hne buf secs cnt
    show ((modFinal now (modFold now (modStep now ⟨hdr, buf, secs, cnt⟩ l) ls)).secs).map _ = _
    cases hl : headerTitle l with
    | some g =>
      have hg : g ≠ [] := headerTitle_ne_nil hl
      unfold modStep
      rw [hl]
      simp only [listIsEmpty_false hne, Bool.not_false, Bool.or_true, if_true]
      unfold pushSection
      simp only [listIsEmpty_false hne, Bool.false_eq_true, if_false]
      rw [ih g hg]
      simp [List.filterMap_cons, hl]
    | none =>
      unfold modStep
      rw [hl]
      simp only []
      rw [ih hdr hne]
      simp [List.filterMap_cons, hl]

theorem modFold_titles_no_header (now : Nat) (L : List Str) :
    ∀ (buf : List Str) (cnt : Nat),
      ((modFinal now (modFold now ⟨[], buf, [], cnt⟩ L)).secs).map PaperSection.title =
        (if L.filterMap headerTitle = [] then
          (if buf = [] ∧ L = [] then [] else [str "Introduction"])
        else
          (if buf = [] ∧ (L.head?.bind headerTitle).isSome then L.filterMap headerTitle
           else str "Front Matter" :: L.filterMap headerTitle)) := by
  induction L with
  | nil =>
    intro buf cnt
    by_cases hbuf : buf = []
    · subst hbuf
      unfold modFold modFinal
      simp
    · unfold modFold modFinal
      simp only [List.isEmpty_nil, listIsEmpty_false hbuf, Bool.not_false,
        Bool.not_true, Bool.true_or, if_true]
      unfold pushSection
      simp [hbuf]
  | cons l ls ih =>
    intro buf cnt
    show ((modFinal now (modFold now (modStep now ⟨[], buf, [], cnt⟩ l) ls)).secs).map _ = _
    cases hl : headerTitle l with
    | some g =>
      have hg : g ≠ [] := headerTitle_ne_nil hl
      have hfm : (l :: ls).filterMap headerTitle = g :: ls.filterMap headerTitle := by
        simp [List.filterMap_cons, hl]
      by_cases hbuf : buf = []
      · subst hbuf
        unfold modStep
        rw [hl]
        simp only [List.isEmpty_nil, Bool.not_true, Bool.or_self, Bool.false_eq_true, if_false]
        rw [modFold_titles_with_header now ls g hg]
        rw [hfm]
        simp [hl]
      · unfold modStep
        rw [hl]
        simp only [listIsEmpty_false hbuf, Bool.not_false, Bool.true_or, if_true]
        unfold pushSection
        simp only [List.isEmpty_nil, if_true]
        rw [modFold_titles_with_header now ls g hg]
        rw [hfm]
        simp [hbuf]
    | none =>
      unfold modStep
      rw [hl]
      simp only []
      rw [ih]
      have hbufl : ¬ (buf ++ [l] = []) := by simp
      have hfm : (l :: ls).filterMap headerTitle = ls.filterMap headerTitle := by
        simp [List.filterMap_cons, hl]
      rw [hfm]
      by_cases hls : ls.filterMap headerTitle = []
      · simp [hls, hbufl]
      · simp [hls, hbufl, hl]

/-- C9 (confirmed): for every input, `modularizeText` returns at least one
section, and the document order matches the scan: the resulting titles are
exactly the heading titles in encounter order, preceded by a
`Front Matter` section when content precedes the first heading, or the
single default `Introduction` section when no line is a heading. -/
theorem c9_sections_nonempty_in_heading_order (now : Nat) (text : Str) :
    modularizeText now text ≠ [] ∧
    (modularizeText now text).map PaperSection.title =
      modTitlesSpec (splitRNLines text) := by
  obtain ⟨hscan, hne⟩ := modularizeText_scan now text
  refine ⟨hne, ?_⟩
  rw [hscan, modFold_titles_no_header now (splitRNLines text)]
  unfold modTitlesSpec
  have hL := splitRNLines_ne_nil text
  cases hLc : splitRNLines text with
  | nil => exact absurd hLc hL
  | cons l0 ls =>
    by_cases hfm : (l0 :: ls).filterMap headerTitle = []
    · simp [hfm]
    · by_cases hh : (headerTitle l0).isSome
      · simp [hfm, listIsEmpty_false hfm, hh]
      · simp [hfm, listIsEmpty_false hfm, hh]

theorem splitRN_line_chars (t : Str) : ∀ l ∈ splitRNLines t, ∀ c ∈ l, c ∈ t := by
  induction t using splitRNLines.induct with
  | case1 => simp [splitRNLines]
  | case2 => simp [splitRNLines]
  | case3 c hc => simp [splitRNLines, hc]
  | case4 d rest ih =>
    have heq : splitRNLines (lfChar :: d :: rest) = [] :: splitRNLines (d :: rest) := by
      conv_lhs => unfold splitRNLines
      simp
    rw [heq]
    intro l hl c hc
    rcases List.mem_cons.mp hl with hl | hl
    · rw [hl] at hc
      simp at hc
    · exact List.mem_cons_of_mem _ (ih l hl c hc)
  | case5 c d rest h1 h2 ih =>
    have heq : splitRNLines (c :: d :: rest) = [] :: splitRNLines rest := by
      conv_lhs => unfold splitRNLines
      simp only [h1, Bool.false_eq_true, if_false, h2, if_true]
    rw [heq]
    intro l hl ch hc
    rcases List.mem_cons.mp hl with hl | hl
    · rw [hl] at hc
      simp at hc
    · exact List.mem_cons_of_mem _ (List.mem_cons_of_mem _ (ih l hl ch hc))
  | case6 c d rest h1 h2 hnil ih =>
    exact absurd hnil (splitRNLines_ne_nil _)
  | case7 c d rest h1 h2 l0 ls0 hsplit ih =>
    have heq : splitRNLines (c :: d :: rest) = (c :: l0) :: ls0 := by
      conv_lhs => unfold splitRNLines
      simp only [h1, Bool.false_eq_true, if_false, h2, hsplit]
    rw [heq]
    intro l hl ch hc
    rcases List.mem_cons.mp hl with hl | hl
    · rw [hl] at hc
      rcases List.mem_cons.mp hc with hc | hc
      · rw [hc]
        exact List.mem_cons_self _ _
      · have hl0 : l0 ∈ splitRNLines (d :: rest) := by
          rw [hsplit]
          exact List.mem_cons_self _ _
        exact List.mem_cons_of_mem _ (ih l0 hl0 ch hc)
    · have hls : l ∈ splitRNLines (d :: rest) := by
        rw [hsplit]
        exact List.mem_cons_of_mem _ hl
      exact List.mem_cons_of_mem _ (ih l hls ch hc)

/-! ## Whitespace-only inputs (C2) -/

theorem dropWhile_eq_nil_of_all {p : Char → Bool} {l : Str}
    (h : ∀ c ∈ l, p c = true) : l.dropWhile p = [] := by
  induction l with
  | nil => rfl
  | cons c cs ih =>
    rw [List.dropWhile_cons]
    simp only [h c (List.mem_cons_self c cs), if_true]
    exact ih (fun x hx => h x (List.mem_cons_of_mem c hx))

theorem jsTrim_of_allWs {s : Str} (h : ∀ c ∈ s, isJsWs c = true) :
    jsTrim s = [] := by
  unfold jsTrim jsTrimStart jsTrimEnd
  rw [dropWhile_eq_nil_of_all (fun c hc => h c (List.mem_reverse.mp hc))]
  rfl

theorem joinLF_allWs {L : List Str}
    (h : ∀ l ∈ L, ∀ c ∈ l, isJsWs c = true) :
    ∀ c ∈ joinLF L, isJsWs c = true := by
  induction L with
  | nil => simp [joinLF]
  | cons l ls ih =>
    cases ls with
    | nil =>
      intro c hc
      exact h l (List.mem_cons_self _ _) c hc
    | cons l2 ls2 =>
      have heq : joinLF (l :: l2 :: ls2) = l ++ lfChar :: joinLF (l2 :: ls2) := rfl
      rw [heq]
      intro c hc
      rcases List.mem_append.mp hc with hc | hc
      · exact h l (List.mem_cons_self _ _) c hc
      · rcases List.mem_cons.mp hc with hc | hc
        · rw [hc]; decide
        · exact ih (fun x hx => h x (List.mem_cons_of_mem l hx)) c hc

theorem modFold_allWs_contents (now : Nat) (L : List Str)
    (hL : ∀ l ∈ L, ∀ c ∈ l, isJsWs c = true) :
    ∀ st : ModState,
      (∀ l ∈ st.currentContent, ∀ c ∈ l, isJsWs c = true) →
      (∀ s ∈ st.secs, s.content = []) →
      ((∀ l ∈ (modFold now st L).currentContent, ∀ c ∈ l, isJsWs c = true) ∧
       (∀ s ∈ (modFold now st L).secs, s.content = [])) := by
  induction L with
  | nil =>
    intro st h1 h2
    exact ⟨h1, h2⟩
  | cons l ls ih =>
    intro st h1 h2
    have hLls : ∀ x ∈ ls, ∀ c ∈ x, isJsWs c = true :=
      fun x hx => hL x (List.mem_cons_of_mem l hx)
    show (∀ x ∈ (modFold now (modStep now st l) ls).currentContent, _) ∧ _
    cases hl : headerTitle l with
    | some g =>
      apply ih hLls
      · unfold modStep
        rw [hl]
        simp
      · unfold modStep
        rw [hl]
        simp only []
        by_cases hcond : (!st.currentContent.isEmpty || !st.currentHeader.isEmpty) = true
        · rw [if_pos hcond]
          unfold pushSection
          intro s hs
          simp only [] at hs
          rcases List.mem_append.mp hs with hs | hs
          · exact h2 s hs
          · rcases List.mem_singleton.mp hs with rfl
            exact jsTrim_of_allWs (joinLF_allWs h1)
        · rw [if_neg hcond]
          exact h2
    | none =>
      apply ih hLls
      · unfold modStep
        rw [hl]
        simp only []
        intro x hx
        rcases List.mem_append.mp hx with hx | hx
        · exact h1 x hx
        · rcases List.mem_singleton.mp hx with rfl
          exact hL x (List.mem_cons_self _ _)
      · unfold modStep
        rw [hl]
        exact h2

theorem modFinal_allWs (now : Nat) (st : ModState)
    (h1 : ∀ l ∈ st.currentContent, ∀ c ∈ l, isJsWs c = true)
    (h2 : ∀ s ∈ st.secs, s.content = []) :
    ∀ s ∈ (modFinal now st).secs, s.content = [] := by
  unfold modFinal
  by_cases hcond : (!st.currentContent.isEmpty || !st.currentHeader.isEmpty) = true
  · rw [if_pos hcond]
    unfold pushSection
    intro s hs
    simp only [] at hs
    rcases List.mem_append.mp hs with hs | hs
    · exact h2 s hs
    · rcases List.mem_singleton.mp hs with rfl
      exact jsTrim_of_allWs (joinLF_allWs h1)
  · rw [if_neg hcond]
    exact h2

/-- C2 counterexample: on the empty input, `modularizeText` does NOT return
the fixed default seed set: it returns one derived section (titled
`Introduction`, empty content), because the split of the empty string is
one empty line, which is buffered as content and flushed at the end, so the
zero-sections fallback never fires. -/
theorem c2_empty_input_not_seed :
    (∀ c ∈ ([] : Str), isJsWs c = true) ∧
    modularizeText 0 [] ≠ INITIAL_SECTIONS ∧
    (modularizeText 0 []).length = 1 ∧ INITIAL_SECTIONS.length = 4 := by
  refine ⟨?_, ?_, ?_, ?_⟩ <;> decide

/-- C2 (amended): for every input that is empty or consists only of
whitespace characters, `modularizeText` returns a non-empty sequence of
sections each with empty content — derived from the input, never the fixed
default seed set `INITIAL_SECTIONS` (the fallback branch is unreachable). -/
theorem c2_whitespace_input_not_seed (now : Nat) (text : Str)
    (h : ∀ c ∈ text, isJsWs c = true) :
    modularizeText now text ≠ [] ∧
    (∀ s ∈ modularizeText now text, s.content = []) ∧
    modularizeText now text ≠ INITIAL_SECTIONS := by
  obtain ⟨hscan, hne⟩ := modularizeText_scan now text
  have hlines : ∀ l ∈ splitRNLines text, ∀ c ∈ l, isJsWs c = true :=
    fun l hl c hc => h c (splitRN_line_chars text l hl c hc)
  have hinv := modFold_allWs_contents now (splitRNLines text) hlines
    ⟨[], [], [], 0⟩ (by simp) (by simp)
  have hempty : ∀ s ∈ modularizeText now text, s.content = [] := by
    rw [hscan]
    exact modFinal_allWs now _ hinv.1 hinv.2
  refine ⟨hne, hempty, ?_⟩
  intro heq
  have hall : ∀ s ∈ INITIAL_SECTIONS, s.content = [] := heq ▸ hempty
  have hfalse := hall _ (show _ ∈ INITIAL_SECTIONS by
    unfold INITIAL_SECTIONS
    exact List.mem_cons_self _ _)
  exact absurd hfalse (by decide)

/-- Witness for C2 (amended) at the input of four space characters. -/
theorem c2_whitespace_input_not_seed_witness :
    (∀ c ∈ ([' ', ' ', ' ', ' '] : Str), isJsWs c = true) ∧
    (modularizeText 0 [' ', ' ', ' ', ' '] ≠ [] ∧
     (∀ s ∈ modularizeText 0 [' ', ' ', ' ', ' '], s.content = []) ∧
     modularizeText 0 [' ', ' ', ' ', ' '] ≠ INITIAL_SECTIONS) :=
  ⟨by decide, c2_whitespace_input_not_seed 0 [' ', ' ', ' ', ' '] (by decide)⟩

/-! ## Lines, joins and splits (towards C8) -/

theorem splitLF_ne_nil (s : Str) : splitLF s ≠ [] := by
  cases s with
  | nil => simp [splitLF]
  | cons c cs =>
    unfold splitLF
    split_ifs
    · simp
    · cases h : splitLF cs <;> simp

theorem splitLF_cons_ne (c : Char) (cs : Str) (hc : ¬ c = lfChar) :
    ∃ l ls, splitLF cs = l :: ls ∧ splitLF (c :: cs) = (c :: l) :: ls := by
  cases h : splitLF cs with
  | nil => exact absurd h (splitLF_ne_nil cs)
  | cons l ls =>
    refine ⟨l, ls, rfl, ?_⟩
    conv_lhs => unfold splitLF
    simp only [hc, if_false, h]

theorem splitLF_append_lf (a b : Str) :
    splitLF (a ++ lfChar :: b) = splitLF a ++ splitLF b := by
  induction a with
  | nil =>
    show splitLF (lfChar :: b) = splitLF [] ++ splitLF b
    conv_lhs => unfold splitLF
    simp [splitLF]
  | cons c cs ih =>
    by_cases hc : c = lfChar
    · subst hc
      show splitLF (lfChar :: (cs ++ lfChar :: b)) = splitLF (lfChar :: cs) ++ splitLF b
      conv_lhs => unfold splitLF
      conv_rhs => rw [show splitLF (lfChar :: cs) = [] :: splitLF cs by
        conv_lhs => unfold splitLF
        simp]
      simp [ih]
    · obtain ⟨l, ls, hsp, hcons⟩ := splitLF_cons_ne c cs hc
      obtain ⟨l2, ls2, hsp2, hcons2⟩ := splitLF_cons_ne c (cs ++ lfChar :: b) hc
      rw [List.cons_append, hcons2, hcons]
      rw [ih] at hsp2
      rw [hsp] at hsp2
      rcases hsp2 with hsp2
      simp only [List.cons_append] at hsp2
      injection hsp2 with h1 h2
      rw [h1, List.cons_append, h2]

theorem splitLF_no_lf (s : Str) : ∀ l ∈ splitLF s, lfChar ∉ l := by
  induction s with
  | nil => simp [splitLF]
  | cons c cs ih =>
    by_cases hc : c = lfChar
    · subst hc
      rw [show splitLF (lfChar :: cs) = [] :: splitLF cs by
        conv_lhs => unfold splitLF
        simp]
      intro l hl
      rcases List.mem_cons.mp hl with hl | hl
      · rw [hl]; simp
      · exact ih l hl
    · obtain ⟨l0, ls0, hsp, hcons⟩ := splitLF_cons_ne c cs hc
      rw [hcons]
      intro l hl
      rcases List.mem_cons.mp hl with hl | hl
      · rw [hl]
        intro hmem
        rcases List.mem_cons.mp hmem with hmem | hmem
        · exact hc hmem.symm
        · exact ih l0 (by rw [hsp]; exact List.mem_cons_self _ _) hmem
      · exact ih l (by rw [hsp]; exact List.mem_cons_of_mem _ hl)

theorem splitLF_singleton {s : Str} (h : lfChar ∉ s) : splitLF s = [s] := by
  induction s with
  | nil => rfl
  | cons c cs ih =>
    have hc : ¬ c = lfChar := fun hc => h (hc ▸ List.mem_cons_self c cs)
    obtain ⟨l0, ls0, hsp, hcons⟩ := splitLF_cons_ne c cs hc
    rw [hcons]
    have hcs := ih (fun hm => h (List.mem_cons_of_mem c hm))
    rw [hcs] at hsp
    injection hsp with h1 h2
    rw [h1, h2]

theorem splitRN_eq_splitLF {s : Str} (h : crChar ∉ s) :
    splitRNLines s = splitLF s := by
  induction s using splitRNLines.induct with
  | case1 => rfl
  | case2 =>
    show splitRNLines [lfChar] = splitLF [lfChar]
    conv_rhs => unfold splitLF
    simp [splitRNLines, splitLF]
  | case3 c hc =>
    show splitRNLines [c] = splitLF [c]
    conv_rhs => unfold splitLF
    unfold splitRNLines
    simp [hc, splitLF]
  | case4 d rest ih =>
    have hdr : crChar ∉ d :: rest := fun hm => h (List.mem_cons_of_mem _ hm)
    have heq : splitRNLines (lfChar :: d :: rest) = [] :: splitRNLines (d :: rest) := by
      conv_lhs => unfold splitRNLines
      simp
    rw [heq, ih hdr]
    conv_rhs => unfold splitLF
    simp
  | case5 c d rest h1 h2 ih =>
    simp only [Bool.and_eq_true, decide_eq_true_eq] at h2
    exact absurd (h2.1 ▸ List.mem_cons_self c (d :: rest)) h
  | case6 c d rest h1 h2 hnil ih =>
    exact absurd hnil (splitRNLines_ne_nil _)
  | case7 c d rest h1 h2 l0 ls0 hsplit ih =>
    have hdr : crChar ∉ d :: rest := fun hm => h (List.mem_cons_of_mem _ hm)
    have heq : splitRNLines (c :: d :: rest) = (c :: l0) :: ls0 := by
      conv_lhs => unfold splitRNLines
      simp only [h1, Bool.false_eq_true, if_false, h2, hsplit]
    rw [heq]
    have hc : ¬ c = lfChar := h1
    obtain ⟨l1, ls1, hsp1, hcons1⟩ := splitLF_cons_ne c (d :: rest) hc
    rw [hcons1]
    rw [← ih hdr] at hsp1
    rw [hsplit] at hsp1
    injection hsp1 with ha hb
    rw [ha, hb]

theorem joinLF_splitLF (s : Str) : joinLF (splitLF s) = s := by
  induction s with
  | nil => rfl
  | cons c cs ih =>
    by_cases hc : c = lfChar
    · subst hc
      rw [show splitLF (lfChar :: cs) = [] :: splitLF cs by
        conv_lhs => unfold splitLF
        simp]
      cases hsp : splitLF cs with
      | nil => exact absurd hsp (splitLF_ne_nil cs)
      | cons l ls =>
        show joinLF ([] :: l :: ls) = lfChar :: cs
        rw [show joinLF ([] :: l :: ls) = [] ++ lfChar :: joinLF (l :: ls) from rfl]
        rw [← hsp, ih]
        rfl
    · obtain ⟨l0, ls0, hsp, hcons⟩ := splitLF_cons_ne c cs hc
      rw [hcons]
      cases ls0 with
      | nil =>
        show c :: l0 = c :: cs
        rw [hsp] at ih
        show c :: l0 = c :: cs
        have : joinLF [l0] = l0 := rfl
        rw [this] at ih
        rw [ih]
      | cons l1 ls1 =>
        show (c :: l0) ++ lfChar :: joinLF (l1 :: ls1) = c :: cs
        rw [hsp] at ih
        have : joinLF (l0 :: l1 :: ls1) = l0 ++ lfChar :: joinLF (l1 :: ls1) := rfl
        rw [this] at ih
        rw [List.cons_append, ih]

theorem splitLF_joinLF {L : List Str} (hne : L ≠ [])
    (h : ∀ l ∈ L, lfChar ∉ l) : splitLF (joinLF L) = L := by
  induction L with
  | nil => exact absurd rfl hne
  | cons l ls ih =>
    cases ls with
    | nil =>
      show splitLF (joinLF [l]) = [l]
      have : joinLF [l] = l := rfl
      rw [this]
      exact splitLF_singleton (h l (List.mem_cons_self _ _))
    | cons l2 ls2 =>
      have : joinLF (l :: l2 :: ls2) = l ++ lfChar :: joinLF (l2 :: ls2) := rfl
      rw [this, splitLF_append_lf,
        splitLF_singleton (h l (List.mem_cons_self _ _)),
        ih (by simp) (fun x hx => h x (List.mem_cons_of_mem l hx))]
      rfl

theorem modifyLast_snoc (f : Str → Str) (xs : List Str) (y : Str) :
    modifyLast f (xs ++ [y]) = xs ++ [f y] := by
  induction xs with
  | nil => rfl
  | cons x xs ih =>
    cases xs with
    | nil => rfl
    | cons x2 xs2 =>
      show x :: modifyLast f ((x2 :: xs2) ++ [y]) = x :: ((x2 :: xs2) ++ [f y])
      rw [ih]

theorem splitLF_snoc {c : Char} (hc : ¬ c = lfChar) (a : Str) :
    splitLF (a ++ [c]) = modifyLast (fun l => l ++ [c]) (splitLF a) := by
  induction a with
  | nil =>
    have h1 : splitLF [c] = [[c]] := splitLF_singleton (by
      intro hm
      rcases List.mem_singleton.mp hm with rfl
      exact hc rfl)
    show splitLF ([] ++ [c]) = modifyLast _ (splitLF [])
    rw [List.nil_append, h1]
    rfl
  | cons x xs ih =>
    by_cases hx : x = lfChar
    · subst hx
      show splitLF (lfChar :: (xs ++ [c])) = _
      rw [show splitLF (lfChar :: (xs ++ [c])) = [] :: splitLF (xs ++ [c]) by
        conv_lhs => unfold splitLF
        simp]
      rw [show splitLF (lfChar :: xs) = [] :: splitLF xs by
        conv_lhs => unfold splitLF
        simp]
      rw [ih]
      cases hsp : splitLF xs with
      | nil => exact absurd hsp (splitLF_ne_nil xs)
      | cons l ls => rfl
    · obtain ⟨l, ls, hsp, hcons⟩ := splitLF_cons_ne x xs hx
      obtain ⟨l2, ls2, hsp2, hcons2⟩ := splitLF_cons_ne x (xs ++ [c]) hx
      rw [List.cons_append, hcons2, hcons]
      rw [ih, hsp] at hsp2
      cases ls with
      | nil =>
        have hml : modifyLast (fun l => l ++ [c]) [l] = [l ++ [c]] := rfl
        rw [hml] at hsp2
        injection hsp2 with e1 e2
        rw [← e1, ← e2]
        rfl
      | cons l1 ls1 =>
        have hml : modifyLast (fun l => l ++ [c]) (l :: l1 :: ls1) =
            l :: modifyLast (fun l => l ++ [c]) (l1 :: ls1) := rfl
        rw [hml] at hsp2
        injection hsp2 with e1 e2
        calc (x :: l2) :: ls2 = (x :: l) :: modifyLast (fun l => l ++ [c]) (l1 :: ls1) := by
              rw [e1, e2]
          _ = modifyLast (fun l => l ++ [c]) ((x :: l) :: l1 :: ls1) := rfl

theorem splitLF_reverse (s : Str) :
    splitLF s.reverse = ((splitLF s).map List.reverse).reverse := by
  induction s with
  | nil => rfl
  | cons c cs ih =>
    rw [List.reverse_cons]
    by_cases hc : c = lfChar
    · subst hc
      rw [show (cs.reverse ++ [lfChar]) = cs.reverse ++ lfChar :: [] from rfl,
        splitLF_append_lf, ih]
      rw [show splitLF (lfChar :: cs) = [] :: splitLF cs by
        conv_lhs => unfold splitLF
        simp]
      simp [splitLF]
    · rw [splitLF_snoc hc, ih]
      obtain ⟨l, ls, hsp, hcons⟩ := splitLF_cons_ne c cs hc
      rw [hcons, hsp]
      simp only [List.map_cons, List.reverse_cons, modifyLast_snoc]

/-! ## Trim lemmas -/

theorem dropWhile_append2 (p : Char → Bool) (a b : Str) :
    (a ++ b).dropWhile p =
      if (a.dropWhile p).isEmpty then b.dropWhile p else a.dropWhile p ++ b := by
  induction a with
  | nil => simp
  | cons c cs ih =>
    by_cases hp : p c
    · simp only [List.cons_append, List.dropWhile_cons, hp, if_true]
      exact ih
    · simp [List.dropWhile_cons, hp]

theorem dropWhile_past_ws_run {p : Char → Bool} {w : Str}
    (hw : ∀ c ∈ w, p c = true) (x : Str) :
    (w ++ x).dropWhile p = x.dropWhile p := by
  rw [dropWhile_append2, dropWhile_eq_nil_of_all hw]
  rfl

theorem dropWhile_idem (p : Char → Bool) (l : Str) :
    (l.dropWhile p).dropWhile p = l.dropWhile p := by
  induction l with
  | nil => rfl
  | cons c cs ih =>
    by_cases hp : p c
    · simp only [List.dropWhile_cons, hp, if_true]
      exact ih
    · simp [List.dropWhile_cons, hp]

theorem jsTrimEnd_cons (c : Char) (cs : Str) :
    jsTrimEnd (c :: cs) =
      if jsTrimEnd cs = [] then (if isJsWs c then [] else [c])
      else c :: jsTrimEnd cs := by
  unfold jsTrimEnd
  rw [List.reverse_cons, dropWhile_append2]
  by_cases hnil : (cs.reverse.dropWhile isJsWs) = []
  · rw [hnil]
    simp only [List.isEmpty_nil, if_true, List.reverse_eq_nil_iff, hnil]
    simp only [List.dropWhile_cons, List.dropWhile_nil]
    by_cases hw : isJsWs c
    · simp [hw]
    · simp [hw]
  · rw [listIsEmpty_false hnil]
    simp only [Bool.false_eq_true, if_false]
    rw [if_neg (by simpa using hnil)]
    rw [List.reverse_append]
    rfl

theorem jsTrim_comm (s : Str) :
    jsTrimStart (jsTrimEnd s) = jsTrimEnd (jsTrimStart s) := by
  induction s with
  | nil => rfl
  | cons c cs ih =>
    by_cases hw : isJsWs c
    · have hts : jsTrimStart (c :: cs) = jsTrimStart cs := by
        unfold jsTrimStart
        simp [List.dropWhile_cons, hw]
      rw [hts, jsTrimEnd_cons]
      by_cases hnil : jsTrimEnd cs = []
      · rw [if_pos hnil, if_pos hw]
        rw [hnil] at ih
        rw [← ih]
      · rw [if_neg hnil]
        show jsTrimStart (c :: jsTrimEnd cs) = _
        have : jsTrimStart (c :: jsTrimEnd cs) = jsTrimStart (jsTrimEnd cs) := by
          unfold jsTrimStart
          simp [List.dropWhile_cons, hw]
        rw [this, ih]
    · have hts : jsTrimStart (c :: cs) = c :: cs := by
        unfold jsTrimStart
        simp [List.dropWhile_cons, hw]
      rw [hts, jsTrimEnd_cons]
      by_cases hnil : jsTrimEnd cs = []
      · rw [if_pos hnil, if_neg hw]
        show jsTrimStart [c] = [c]
        unfold jsTrimStart
        simp [List.dropWhile_cons, hw]
      · rw [if_neg hnil]
        show jsTrimStart (c :: jsTrimEnd cs) = c :: jsTrimEnd cs
        unfold jsTrimStart
        simp [List.dropWhile_cons, hw]

theorem jsTrimEnd_idem (s : Str) : jsTrimEnd (jsTrimEnd s) = jsTrimEnd s := by
  unfold jsTrimEnd
  rw [List.reverse_reverse, dropWhile_idem]

theorem jsTrimStart_idem (s : Str) : jsTrimStart (jsTrimStart s) = jsTrimStart s :=
  dropWhile_idem isJsWs s

theorem jsTrim_idem (s : Str) : jsTrim (jsTrim s) = jsTrim s := by
  show jsTrimStart (jsTrimEnd (jsTrimStart (jsTrimEnd s))) = jsTrimStart (jsTrimEnd s)
  rw [jsTrim_comm (jsTrimStart (jsTrimEnd s))]
  rw [jsTrimStart_idem (jsTrimEnd s)]
  rw [← jsTrim_comm (jsTrimEnd s)]
  rw [jsTrimEnd_idem s]

theorem jsTrim_cons_ws {w : Char} (hw : isJsWs w = true) (x : Str) :
    jsTrim (w :: x) = jsTrim x := by
  show jsTrimStart (jsTrimEnd (w :: x)) = _
  rw [jsTrim_comm (w :: x)]
  have : jsTrimStart (w :: x) = jsTrimStart x := by
    unfold jsTrimStart
    simp [List.dropWhile_cons, hw]
  rw [this, ← jsTrim_comm x]
  rfl

theorem jsTrim_snoc_ws {w : Char} (hw : isJsWs w = true) (x : Str) :
    jsTrim (x ++ [w]) = jsTrim x := by
  show jsTrimStart (jsTrimEnd (x ++ [w])) = jsTrimStart (jsTrimEnd x)
  have : jsTrimEnd (x ++ [w]) = jsTrimEnd x := by
    unfold jsTrimEnd
    rw [List.reverse_append]
    show ((w :: x.reverse).dropWhile isJsWs).reverse = _
    simp [List.dropWhile_cons, hw]
  rw [this]

theorem jsTrimEnd_append_ws {w : Str} (hw : ∀ c ∈ w, isJsWs c = true) (x : Str) :
    jsTrimEnd (x ++ w) = jsTrimEnd x := by
  unfold jsTrimEnd
  rw [List.reverse_append,
    dropWhile_past_ws_run (fun c hc => hw c (List.mem_reverse.mp hc))]

theorem jsTrim_append_ws {w : Str} (hw : ∀ c ∈ w, isJsWs c = true) (x : Str) :
    jsTrim (x ++ w) = jsTrim x := by
  show jsTrimStart (jsTrimEnd (x ++ w)) = jsTrimStart (jsTrimEnd x)
  rw [jsTrimEnd_append_ws hw]

/-! ## Whitespace wrapping and heading preservation -/

theorem wsWrap_refl (l : Str) : wsWrap l l :=
  ⟨[], [], by simp, by simp, by simp⟩

theorem wsWrap_trans {a b c : Str} (h1 : wsWrap a b) (h2 : wsWrap b c) :
    wsWrap a c := by
  obtain ⟨w1, w2, hw1, hw2, heq⟩ := h1
  obtain ⟨v1, v2, hv1, hv2, heq2⟩ := h2
  refine ⟨v1 ++ w1, w2 ++ v2, ?_, ?_, ?_⟩
  · intro x hx
    rcases List.mem_append.mp hx with hx | hx
    · exact hv1 x hx
    · exact hw1 x hx
  · intro x hx
    rcases List.mem_append.mp hx with hx | hx
    · exact hw2 x hx
    · exact hv2 x hx
  · rw [← heq2, ← heq]
    simp [List.append_assoc]

theorem wsWrap_reverse {a b : Str} (h : wsWrap a b) :
    wsWrap a.reverse b.reverse := by
  obtain ⟨w1, w2, hw1, hw2, heq⟩ := h
  refine ⟨w2.reverse, w1.reverse,
    fun c hc => hw2 c (List.mem_reverse.mp hc),
    fun c hc => hw1 c (List.mem_reverse.mp hc), ?_⟩
  rw [← heq]
  simp [List.reverse_append, List.append_assoc]

theorem trimStart_lines (s : Str) :
    ∀ l' ∈ splitLF (jsTrimStart s), ∃ l ∈ splitLF s, wsWrap l' l := by
  induction s with
  | nil =>
    intro l' hl'
    exact ⟨l', hl', wsWrap_refl l'⟩
  | cons c cs ih =>
    by_cases hw : isJsWs c
    · have hts : jsTrimStart (c :: cs) = jsTrimStart cs := by
        unfold jsTrimStart
        simp [List.dropWhile_cons, hw]
      rw [hts]
      intro l' hl'
      obtain ⟨l, hl, hwr⟩ := ih l' hl'
      by_cases hc : c = lfChar
      · subst hc
        rw [show splitLF (lfChar :: cs) = [] :: splitLF cs by
          conv_lhs => unfold splitLF
          simp]
        exact ⟨l, List.mem_cons_of_mem _ hl, hwr⟩
      · obtain ⟨l0, ls0, hsp, hcons⟩ := splitLF_cons_ne c cs hc
        rw [hcons]
        rw [hsp] at hl
        rcases List.mem_cons.mp hl with hl | hl
        · subst hl
          refine ⟨c :: l, List.mem_cons_self _ _, ?_⟩
          obtain ⟨w1, w2, hw1, hw2, heq⟩ := hwr
          refine ⟨c :: w1, w2, ?_, hw2, ?_⟩
          · intro x hx
            rcases List.mem_cons.mp hx with hx | hx
            · rw [hx]; exact hw
            · exact hw1 x hx
          · rw [← heq]
            simp
        · exact ⟨l, List.mem_cons_of_mem _ hl, hwr⟩
    · have hts : jsTrimStart (c :: cs) = c :: cs := by
        unfold jsTrimStart
        simp [List.dropWhile_cons, hw]
      rw [hts]
      intro l' hl'
      exact ⟨l', hl', wsWrap_refl l'⟩

theorem trimEnd_lines (s : Str) :
    ∀ l' ∈ splitLF (jsTrimEnd s), ∃ l ∈ splitLF s, wsWrap l' l := by
  intro l' hl'
  have hE : jsTrimEnd s = (jsTrimStart s.reverse).reverse := rfl
  rw [hE, splitLF_reverse, List.mem_reverse] at hl'
  obtain ⟨m, hm, hml⟩ := List.mem_map.mp hl'
  obtain ⟨l0, hl0, hwr⟩ := trimStart_lines s.reverse m hm
  rw [splitLF_reverse, List.mem_reverse] at hl0
  obtain ⟨l, hl, hlr⟩ := List.mem_map.mp hl0
  refine ⟨l, hl, ?_⟩
  have hrev := wsWrap_reverse hwr
  rw [hml, ← hlr, List.reverse_reverse] at hrev
  exact hrev

theorem trim_lines (s : Str) :
    ∀ l' ∈ splitLF (jsTrim s), ∃ l ∈ splitLF s, wsWrap l' l := by
  intro l' hl'
  obtain ⟨m, hm, h1⟩ := trimStart_lines (jsTrimEnd s) l' hl'
  obtain ⟨l, hl, h2⟩ := trimEnd_lines s m hm
  exact ⟨l, hl, wsWrap_trans h1 h2⟩

theorem headerTitle_isSome_char (line : Str) :
    (headerTitle line).isSome = true ↔
      (((jsTrimStart line).take 1 = [hashChar] ∧ 2 ≤ (jsTrimStart line).length ∧
        (∀ c ∈ jsTrim (hashRest line), isLineTerm c = false) ∧
        (jsTrim (hashRest line) = [] → hashRest line = [] ∨
          (∃ c ∈ hashRest line, isLineTerm c = false) ∨
          (jsTrimStart line).take 2 = [hashChar, hashChar])) ∨
       (4 ≤ line.length ∧ ∀ c ∈ line, isUpperChar c = true ∨ isJsWs c = true)) := by
  rw [headerTitle_isSome, lineHeaderMatch1_isSome, lineHeaderMatch2_isSome]

theorem jsTrimStart_append_of_ne {a : Str} (h : jsTrimStart a ≠ []) (b : Str) :
    jsTrimStart (a ++ b) = jsTrimStart a ++ b := by
  unfold jsTrimStart at *
  rw [dropWhile_append2, listIsEmpty_false h]
  simp

theorem hash_takeWhile_ws_stop {w : Str} (hw : ∀ c ∈ w, isJsWs c = true) :
    w.takeWhile (fun c => c = hashChar) = [] := by
  cases w with
  | nil => rfl
  | cons c cs =>
    have hcc : ¬(c = hashChar) := by
      intro hx
      have := hw c (List.mem_cons_self _ _)
      rw [hx] at this
      exact absurd this (by decide)
    simp [List.takeWhile_cons, hcc]

theorem takeWhile_hash_append_ws {t w : Str} (hw : ∀ c ∈ w, isJsWs c = true) :
    (t ++ w).takeWhile (fun c => c = hashChar) =
      t.takeWhile (fun c => c = hashChar) := by
  induction t with
  | nil =>
    rw [List.nil_append, hash_takeWhile_ws_stop hw]
    rfl
  | cons c cs ih =>
    rw [List.cons_append, List.takeWhile_cons, List.takeWhile_cons]
    by_cases hc : c = hashChar
    · subst hc
      rw [if_pos (by simp), if_pos (by simp), ih]
    · simp [hc]

/-- Extending a line by whitespace on both sides keeps the head of its
trimmed form, its maximal hash run, and appends the right whitespace to the
rest after the hashes. -/
theorem hashRest_wsWrap {l' l w1 w2 : Str}
    (hw1 : ∀ c ∈ w1, isJsWs c = true) (hw2 : ∀ c ∈ w2, isJsWs c = true)
    (heq : w1 ++ l' ++ w2 = l) (hne : jsTrimStart l' ≠ []) :
    jsTrimStart l = jsTrimStart l' ++ w2 ∧
    (jsTrimStart l).takeWhile (fun c => c = hashChar) =
      (jsTrimStart l').takeWhile (fun c => c = hashChar) ∧
    hashRest l = hashRest l' ++ w2 := by
  have hts : jsTrimStart l = jsTrimStart l' ++ w2 := by
    rw [← heq, show w1 ++ l' ++ w2 = w1 ++ (l' ++ w2) from by rw [List.append_assoc]]
    show (w1 ++ (l' ++ w2)).dropWhile isJsWs = _
    rw [dropWhile_past_ws_run hw1]
    exact jsTrimStart_append_of_ne hne w2
  have htw : (jsTrimStart l).takeWhile (fun c => c = hashChar) =
      (jsTrimStart l').takeWhile (fun c => c = hashChar) := by
    rw [hts]
    exact takeWhile_hash_append_ws hw2
  refine ⟨hts, htw, ?_⟩
  show (jsTrimStart l).drop
      ((jsTrimStart l).takeWhile (fun c => c = hashChar)).length = _
  rw [htw, hts, List.drop_append_of_le_length (List.takeWhile_prefix _).length_le]
  rfl

theorem headerTitle_none_of_wsWrap {l' l : Str} (hwr : wsWrap l' l)
    (h : headerTitle l = none) : headerTitle l' = none := by
  cases ho : headerTitle l' with
  | none => rfl
  | some g =>
    exfalso
    have hsome' : (headerTitle l').isSome = true := by rw [ho]; rfl
    have hnone : (headerTitle l).isSome = false := by rw [h]; rfl
    obtain ⟨w1, w2, hw1, hw2, heq⟩ := hwr
    rcases (headerTitle_isSome_char l').mp hsome' with hA | hB
    · obtain ⟨hhash, hlen, hterm, himp⟩ := hA
      have hTSne : jsTrimStart l' ≠ [] := by
        intro hx
        rw [hx] at hhash
        simp at hhash
      obtain ⟨hts, htw, hhr⟩ := hashRest_wsWrap hw1 hw2 heq hTSne
      have hBeq : jsTrim (hashRest l) = jsTrim (hashRest l') := by
        rw [hhr]
        exact jsTrim_append_ws hw2 _
      have : (headerTitle l).isSome = true := by
        apply (headerTitle_isSome_char l).mpr
        left
        refine ⟨?_, ?_, ?_, ?_⟩
        · cases hq : jsTrimStart l' with
          | nil => exact absurd hq hTSne
          | cons c0 q =>
            have hc0 : c0 = hashChar := by
              rw [hq] at hhash
              simpa using hhash
            rw [hts, hq, List.cons_append]
            simpa using hc0
        · rw [hts, List.length_append]
          omega
        · rw [hBeq]
          exact hterm
        · intro hB0
          rw [hBeq] at hB0
          rcases himp hB0 with hx | ⟨c, hc, hct⟩ | hx
          · right; right
            apply (takeWhile_two_hash (jsTrimStart l)).mp
            rw [htw]
            have hl1 : (hashRest l').length = 0 := by rw [hx]; rfl
            have hl2 : (hashRest l').length = (jsTrimStart l').length -
                ((jsTrimStart l').takeWhile (fun c => c = hashChar)).length :=
              List.length_drop _ _
            have hl3 : ((jsTrimStart l').takeWhile (fun c => c = hashChar)).length ≤
                (jsTrimStart l').length := (List.takeWhile_prefix _).length_le
            omega
          · right; left
            exact ⟨c, by rw [hhr]; exact List.mem_append.mpr (Or.inl hc), hct⟩
          · right; right
            apply (takeWhile_two_hash (jsTrimStart l)).mp
            rw [htw]
            exact (takeWhile_two_hash (jsTrimStart l')).mpr hx
      rw [this] at hnone
      exact Bool.noConfusion hnone
    · obtain ⟨hlen, hall⟩ := hB
      have : (headerTitle l).isSome = true := by
        apply (headerTitle_isSome_char l).mpr
        right
        constructor
        · rw [← heq]
          simp [List.length_append]
          omega
        · intro c hc
          rw [← heq] at hc
          rcases List.mem_append.mp hc with hc | hc
          · rcases List.mem_append.mp hc with hc | hc
            · exact Or.inr (hw1 c hc)
            · exact hall c hc
          · exact Or.inr (hw2 c hc)
      rw [this] at hnone
      exact (by simp at hnone)

/-! ## Shapes of sectionizer titles and contents -/

theorem mem_of_mem_jsTrim {c : Char} {s : Str} (h : c ∈ jsTrim s) : c ∈ s := by
  unfold jsTrim jsTrimStart jsTrimEnd at h
  have h1 := mem_of_mem_dropWhile h
  rw [List.mem_reverse] at h1
  have h2 := mem_of_mem_dropWhile h1
  rw [List.mem_reverse] at h2
  exact h2

theorem mem_takeWhile {p : Char → Bool} {c : Char} {l : Str}
    (h : c ∈ l.takeWhile p) : p c = true := by
  induction l with
  | nil => simpa using h
  | cons a as ih =>
    rw [List.takeWhile_cons] at h
    by_cases hp : p a
    · rw [if_pos hp] at h
      rcases List.mem_cons.mp h with h | h
      · rw [h]; exact hp
      · exact ih h
    · rw [if_neg hp] at h
      simp at h

theorem wsWrap_trim (s : Str) : wsWrap (jsTrim s) s := by
  have hE : jsTrimEnd s ++ ((s.reverse.takeWhile isJsWs).reverse) = s := by
    unfold jsTrimEnd
    have := List.takeWhile_append_dropWhile (p := isJsWs) (l := s.reverse)
    rw [← List.reverse_append, this, List.reverse_reverse]
  have hS : ((jsTrimEnd s).takeWhile isJsWs) ++ jsTrim s = jsTrimEnd s := by
    unfold jsTrim jsTrimStart
    exact List.takeWhile_append_dropWhile isJsWs (jsTrimEnd s)
  refine ⟨(jsTrimEnd s).takeWhile isJsWs, (s.reverse.takeWhile isJsWs).reverse,
    ?_, ?_, ?_⟩
  · intro c hc
    exact mem_takeWhile hc
  · intro c hc
    rw [List.mem_reverse] at hc
    exact mem_takeWhile hc
  · conv_rhs => rw [← hE, ← hS]

theorem allWs_of_trim_nil {s : Str} (h : jsTrim s = []) :
    ∀ c ∈ s, isJsWs c = true := by
  obtain ⟨w1, w2, hw1, hw2, heq⟩ := wsWrap_trim s
  rw [h] at heq
  intro c hc
  rw [← heq] at hc
  rcases List.mem_append.mp hc with hc | hc
  · rcases List.mem_append.mp hc with hc | hc
    · exact hw1 c hc
    · simp at hc
  · exact hw2 c hc

theorem lineHeaderMatch1_g2 {line g1 g2 : Str}
    (h : lineHeaderMatch1 line = some (g1, g2)) :
    TitleP g2 ∧ (∀ c ∈ g2, c ∈ line ∨ c = hashChar) := by
  have hsubR : ∀ c ∈ (line.dropWhile isJsWs).drop
      ((line.dropWhile isJsWs).takeWhile (fun c => c = hashChar)).length, c ∈ line :=
    fun c hc => mem_of_mem_dropWhile (List.drop_subset _ _ hc)
  unfold lineHeaderMatch1 at h
  simp only [] at h
  set DW := line.dropWhile isJsWs with hDW
  set TW := DW.takeWhile (fun c => c = hashChar) with hTW
  set R := DW.drop TW.length with hRdef
  by_cases h1 : TW.isEmpty = true
  · rw [if_pos h1] at h
    exact Option.noConfusion h
  · rw [if_neg h1] at h
    by_cases h2 : R.isEmpty = true
    · rw [if_pos h2] at h
      by_cases h3 : 2 ≤ TW.length
      · rw [if_pos h3] at h
        rw [Option.some.injEq, Prod.mk.injEq] at h
        obtain ⟨hg1, hg2⟩ := h
        rw [← hg2]
        refine ⟨Or.inl ⟨by decide, by decide, by decide⟩, ?_⟩
        intro c hc
        rcases List.mem_singleton.mp hc with rfl
        exact Or.inr rfl
      · rw [if_neg h3] at h
        exact Option.noConfusion h
    · rw [if_neg h2] at h
      by_cases h4 : (jsTrim R).isEmpty = true
      · rw [if_pos h4] at h
        set RD := R.reverse.dropWhile isLineTerm with hRD
        by_cases h5 : RD.isEmpty = true
        · rw [if_pos h5] at h
          by_cases h6 : 2 ≤ TW.length
          · rw [if_pos h6] at h
            rw [Option.some.injEq, Prod.mk.injEq] at h
            obtain ⟨hg1, hg2⟩ := h
            rw [← hg2]
            refine ⟨Or.inl ⟨by decide, by decide, by decide⟩, ?_⟩
            intro c hc
            rcases List.mem_singleton.mp hc with rfl
            exact Or.inr rfl
          · rw [if_neg h6] at h
            exact Option.noConfusion h
        · rw [if_neg h5] at h
          rw [Option.some.injEq, Prod.mk.injEq] at h
          obtain ⟨hg1, hg2⟩ := h
          rw [← hg2]
          have hRDne : RD ≠ [] := fun hx => by rw [hx] at h5; exact h5 rfl
          have hmemR : RD.headD ' ' ∈ R :=
            List.mem_reverse.mp (mem_of_mem_dropWhile (headD_mem hRDne ' '))
          constructor
          · right
            refine ⟨RD.headD ' ', ?_, ?_, rfl⟩
            · exact allWs_of_trim_nil (List.isEmpty_iff.mp h4) _ hmemR
            · exact head_dropWhile_false hRDne ' '
          · intro c hc
            rcases List.mem_singleton.mp hc with rfl
            exact Or.inl (hsubR _ hmemR)
      · rw [if_neg h4] at h
        by_cases h7 : (jsTrim R).any isLineTerm = true
        · rw [if_pos h7] at h
          exact Option.noConfusion h
        · rw [if_neg h7] at h
          rw [Option.some.injEq, Prod.mk.injEq] at h
          obtain ⟨hg1, hg2⟩ := h
          rw [← hg2]
          constructor
          · left
            refine ⟨jsTrim_idem _, fun hx => by rw [hx] at h4; exact h4 rfl, ?_⟩
            intro c hc
            by_contra hcc
            apply h7
            apply List.any_eq_true.mpr
            exact ⟨c, hc, by revert hcc; cases isLineTerm c <;> simp⟩
          · intro c hc
            exact Or.inl (hsubR c (mem_of_mem_jsTrim hc))

theorem headerTitle_eq_g2 {line g : Str} (hm2 : lineHeaderMatch2 line = none)
    (h : headerTitle line = some g) :
    ∃ g1, lineHeaderMatch1 line = some (g1, g) := by
  unfold headerTitle at h
  cases hm1 : lineHeaderMatch1 line with
  | none =>
    rw [hm1, hm2] at h
    exact Option.noConfusion h
  | some p =>
    obtain ⟨g1, g2⟩ := p
    rw [hm1] at h
    simp only [Option.some.injEq] at h
    have hne := lineHeaderMatch1_g_ne hm1
    rw [listIsEmpty_false hne.2] at h
    simp only [Bool.false_eq_true, if_false] at h
    refine ⟨g1, ?_⟩
    rw [← h]

theorem headerTitle_nil : headerTitle ([] : Str) = none := by decide

theorem joinLF_mem {L : List Str} :
    ∀ c ∈ joinLF L, c = lfChar ∨ ∃ l ∈ L, c ∈ l := by
  induction L with
  | nil => simp [joinLF]
  | cons l ls ih =>
    cases ls with
    | nil =>
      intro c hc
      exact Or.inr ⟨l, List.mem_cons_self _ _, hc⟩
    | cons l2 ls2 =>
      have heq : joinLF (l :: l2 :: ls2) = l ++ lfChar :: joinLF (l2 :: ls2) := rfl
      rw [heq]
      intro c hc
      rcases List.mem_append.mp hc with hc | hc
      · exact Or.inr ⟨l, List.mem_cons_self _ _, hc⟩
      · rcases List.mem_cons.mp hc with hc | hc
        · exact Or.inl hc
        · rcases ih c hc with hc | ⟨x, hx, hcx⟩
          · exact Or.inl hc
          · exact Or.inr ⟨x, List.mem_cons_of_mem l hx, hcx⟩

theorem pushSection_Q (now : Nat) (defT : Str) (st : ModState)
    (hdefT : defT ≠ [] ∧ lfChar ∉ defT ∧ crChar ∉ defT ∧ TitleP defT)
    (hb : BufQ st.currentContent) (hh : HdrQ st.currentHeader)
    (hs : ∀ s ∈ st.secs, SecQ s) :
    ∀ s ∈ (pushSection now defT st).secs, SecQ s := by
  unfold pushSection
  intro s hs'
  simp only [] at hs'
  rcases List.mem_append.mp hs' with hs' | hs'
  · exact hs s hs'
  · rcases List.mem_singleton.mp hs' with rfl
    have htitle : (if st.currentHeader.isEmpty then defT else st.currentHeader) ≠ [] ∧
        lfChar ∉ (if st.currentHeader.isEmpty then defT else st.currentHeader) ∧
        crChar ∉ (if st.currentHeader.isEmpty then defT else st.currentHeader) ∧
        TitleP (if st.currentHeader.isEmpty then defT else st.currentHeader) := by
      by_cases hhe : st.currentHeader.isEmpty
      · simp only [hhe, if_true]
        exact hdefT
      · simp only [hhe, Bool.false_eq_true, if_false]
        rcases hh with hh | hh
        · rw [hh] at hhe
          exact absurd rfl hhe
        · exact hh
    have hcontent_lines : ∀ l ∈ splitLF (jsTrim (joinLF st.currentContent)),
        headerTitle l = none := by
      intro l' hl'
      obtain ⟨l, hl, hwr⟩ := trim_lines _ l' hl'
      by_cases hbuf : st.currentContent = []
      · rw [hbuf] at hl
        have : splitLF (joinLF ([] : List Str)) = [[]] := rfl
        rw [this] at hl
        rcases List.mem_singleton.mp hl with rfl
        exact headerTitle_none_of_wsWrap hwr headerTitle_nil
      · rw [splitLF_joinLF hbuf (fun x hx => (hb x hx).2.1)] at hl
        exact headerTitle_none_of_wsWrap hwr (hb l hl).1
    have hcr : crChar ∉ jsTrim (joinLF st.currentContent) := by
      intro hmem
      have := mem_of_mem_jsTrim hmem
      rcases joinLF_mem _ this with hlf | ⟨l, hl, hcl⟩
      · exact absurd hlf (by decide)
      · exact (hb l hl).2.2 hcl
    exact ⟨htitle.1, htitle.2.1, htitle.2.2.1, htitle.2.2.2,
      jsTrim_idem _, hcr, hcontent_lines⟩

theorem modStep_Q (now : Nat) (st : ModState) (l : Str)
    (hl2 : lineHeaderMatch2 l = none) (hlf : lfChar ∉ l) (hcr : crChar ∉ l)
    (hb : BufQ st.currentContent) (hh : HdrQ st.currentHeader)
    (hs : ∀ s ∈ st.secs, SecQ s) :
    BufQ (modStep now st l).currentContent ∧ HdrQ (modStep now st l).currentHeader ∧
      (∀ s ∈ (modStep now st l).secs, SecQ s) := by
  unfold modStep
  cases hml : headerTitle l with
  | some g =>
    simp only []
    obtain ⟨g1, hm1⟩ := headerTitle_eq_g2 hl2 hml
    have hspec := lineHeaderMatch1_g2 hm1
    have hgQ : HdrQ g := by
      right
      refine ⟨headerTitle_ne_nil hml, ?_, ?_, hspec.1⟩
      · intro hmem
        rcases hspec.2 _ hmem with hc | hc
        · exact hlf hc
        · exact absurd hc (by decide)
      · intro hmem
        rcases hspec.2 _ hmem with hc | hc
        · exact hcr hc
        · exact absurd hc (by decide)
    refine ⟨by intro x hx; simp at hx, hgQ, ?_⟩
    by_cases hcond : (!st.currentContent.isEmpty || !st.currentHeader.isEmpty) = true
    · rw [if_pos hcond]
      exact pushSection_Q now _ st
        ⟨by decide, by decide, by decide, Or.inl ⟨by decide, by decide, by decide⟩⟩ hb hh hs
    · rw [if_neg hcond]
      exact hs
  | none =>
    simp only []
    refine ⟨?_, hh, hs⟩
    intro x hx
    rcases List.mem_append.mp hx with hx | hx
    · exact hb x hx
    · rcases List.mem_singleton.mp hx with rfl
      exact ⟨hml, hlf, hcr⟩

theorem modFold_Q (now : Nat) (L : List Str)
    (hL : ∀ l ∈ L, lineHeaderMatch2 l = none ∧ lfChar ∉ l ∧ crChar ∉ l) :
    ∀ st : ModState, BufQ st.currentContent → HdrQ st.currentHeader →
      (∀ s ∈ st.secs, SecQ s) →
      (BufQ (modFold now st L).currentContent ∧
       HdrQ (modFold now st L).currentHeader ∧
       (∀ s ∈ (modFold now st L).secs, SecQ s)) := by
  induction L with
  | nil =>
    intro st h1 h2 h3
    exact ⟨h1, h2, h3⟩
  | cons l ls ih =>
    intro st h1 h2 h3
    have hl := hL l (List.mem_cons_self _ _)
    have hstep := modStep_Q now st l hl.1 hl.2.1 hl.2.2 h1 h2 h3
    exact ih (fun x hx => hL x (List.mem_cons_of_mem l hx)) _
      hstep.1 hstep.2.1 hstep.2.2

theorem modularize_Q (now : Nat) (text : Str) (hcr : crChar ∉ text)
    (h2 : ∀ l ∈ splitRNLines text, lineHeaderMatch2 l = none) :
    ∀ s ∈ modularizeText now text, SecQ s := by
  obtain ⟨hscan, _⟩ := modularizeText_scan now text
  rw [hscan]
  have hLprops : ∀ l ∈ splitRNLines text,
      lineHeaderMatch2 l = none ∧ lfChar ∉ l ∧ crChar ∉ l := by
    intro l hl
    refine ⟨h2 l hl, ?_, ?_⟩
    · rw [splitRN_eq_splitLF hcr] at hl
      exact splitLF_no_lf text l hl
    · intro hmem
      exact hcr (splitRN_line_chars text l hl crChar hmem)
  have hinv := modFold_Q now (splitRNLines text) hLprops ⟨[], [], [], 0⟩
    (by intro x hx; simp at hx) (Or.inl rfl) (by intro x hx; simp at hx)
  unfold modFinal
  by_cases hcond : (!(modFold now ⟨[], [], [], 0⟩ (splitRNLines text)).currentContent.isEmpty ||
      !(modFold now ⟨[], [], [], 0⟩ (splitRNLines text)).currentHeader.isEmpty) = true
  · rw [if_pos hcond]
    exact pushSection_Q now _ _
      ⟨by decide, by decide, by decide, Or.inl ⟨by decide, by decide, by decide⟩⟩
      hinv.1 hinv.2.1 hinv.2.2
  · rw [if_neg hcond]
    exact hinv.2.2

/-! ## Reparsing the serialised document (C8) -/

theorem interLines_cons (r : PaperSection) (rs : List PaperSection) :
    interLines (r :: rs) = blockLinesOf r ++ tailLines rs := by
  cases rs with
  | nil => simp [interLines, tailLines]
  | cons r2 rs2 =>
    show blockLinesOf r ++ [[]] ++ interLines (r2 :: rs2) =
      blockLinesOf r ++ [] :: interLines (r2 :: rs2)
    simp

theorem modFold_append (now : Nat) (L1 L2 : List Str) (st : ModState) :
    modFold now st (L1 ++ L2) = modFold now (modFold now st L1) L2 := by
  induction L1 generalizing st with
  | nil => rfl
  | cons l ls ih => exact ih (modStep now st l)

theorem modFold_content_lines (now : Nat) (L : List Str)
    (hL : ∀ l ∈ L, headerTitle l = none) (st : ModState) :
    modFold now st L = { st with currentContent := st.currentContent ++ L } := by
  induction L generalizing st with
  | nil => simp [modFold]
  | cons l ls ih =>
    show modFold now (modStep now st l) ls = _
    have hstep : modStep now st l = { st with currentContent := st.currentContent ++ [l] } := by
      unfold modStep
      rw [hL l (List.mem_cons_self _ _)]
    rw [hstep, ih (fun x hx => hL x (List.mem_cons_of_mem l hx))]
    simp

theorem joinLF_cons_ne {L : List Str} (h : L ≠ []) (l : Str) :
    joinLF (l :: L) = l ++ lfChar :: joinLF L := by
  cases L with
  | nil => exact absurd rfl h
  | cons l2 ls => rfl

theorem joinLF_snoc {L : List Str} (h : L ≠ []) (x : Str) :
    joinLF (L ++ [x]) = joinLF L ++ lfChar :: x := by
  induction L with
  | nil => exact absurd rfl h
  | cons l ls ih =>
    cases ls with
    | nil => rfl
    | cons l2 ls2 =>
      show joinLF (l :: ((l2 :: ls2) ++ [x])) = _
      rw [joinLF_cons_ne (by simp) l, ih (by simp)]
      rw [joinLF_cons_ne (by simp) l]
      simp

theorem buffered_content {c : Str} (hc : jsTrim c = c) :
    jsTrim (joinLF ([] :: splitLF c)) = c := by
  rw [joinLF_cons_ne (splitLF_ne_nil c), joinLF_splitLF]
  show jsTrim (lfChar :: c) = c
  rw [jsTrim_cons_ws (by decide), hc]

theorem buffered_content2 {c : Str} (hc : jsTrim c = c) :
    jsTrim (joinLF (([] :: splitLF c) ++ [[]])) = c := by
  rw [joinLF_snoc (by simp)]
  show jsTrim (joinLF ([] :: splitLF c) ++ [lfChar]) = c
  rw [jsTrim_snoc_ws (by decide), buffered_content hc]

theorem headerTitle_block_title {t : Str} (hP : TitleP t) (hne : t ≠ []) :
    headerTitle (str "# " ++ t) = some t := by
  have hline : str "# " ++ t = hashChar :: ' ' :: t := rfl
  rw [hline]
  have hds : (hashChar :: ' ' :: t).dropWhile isJsWs = hashChar :: ' ' :: t := by
    rw [List.dropWhile_cons]
    simp [show isJsWs hashChar = false by decide]
  have htw : (hashChar :: ' ' :: t).takeWhile (fun c => c = hashChar) = [hashChar] := by
    rw [List.takeWhile_cons]
    simp only [decide_eq_true_eq, if_pos rfl]
    rw [List.takeWhile_cons]
    simp [show ¬ (' ' = hashChar) by decide]
  unfold headerTitle lineHeaderMatch1
  simp only []
  rw [hds, htw]
  have hdrop : (hashChar :: ' ' :: t).drop ([hashChar] : Str).length = ' ' :: t := rfl
  rw [hdrop]
  simp only [List.isEmpty_cons, Bool.false_eq_true, if_false]
  rcases hP with ⟨htr, hne', hterm⟩ | ⟨w, hw, hwt, rfl⟩
  · have hb : jsTrim (' ' :: t) = t := by
      rw [jsTrim_cons_ws (by decide), htr]
    rw [hb]
    rw [listIsEmpty_false hne]
    simp only [Bool.false_eq_true, if_false]
    have hany : t.any isLineTerm = false := by
      cases hA : t.any isLineTerm
      · rfl
      · obtain ⟨c, hc, hct⟩ := List.any_eq_true.mp hA
        rw [hterm c hc] at hct
        exact Bool.noConfusion hct
    rw [hany]
    simp only [Bool.false_eq_true, if_false]
    rw [listIsEmpty_false hne]
    simp
  · have hb : jsTrim (' ' :: [w]) = [] := by
      apply jsTrim_of_allWs
      intro c hc
      rcases List.mem_cons.mp hc with rfl | hc
      · decide
      · rcases List.mem_singleton.mp hc with rfl
        exact hw
    rw [hb]
    simp only [List.isEmpty_nil, if_true]
    have hrev : ((' ' :: [w] : Str).reverse).dropWhile isLineTerm = [w, ' '] := by
      show ([w, ' '] : Str).dropWhile isLineTerm = [w, ' ']
      rw [List.dropWhile_cons, if_neg (by rw [hwt]; simp)]
    rw [hrev]
    simp

theorem sectionBlock_cr_free {s : PaperSection}
    (ht : crChar ∉ s.title) (hc : crChar ∉ s.content) :
    crChar ∉ sectionBlock s := by
  intro hmem
  show False
  have : sectionBlock s = (str "# " ++ s.title) ++ lfChar :: lfChar :: s.content := rfl
  rw [this] at hmem
  rcases List.mem_append.mp hmem with hm | hm
  · rcases List.mem_append.mp hm with hm | hm
    · revert hm
      decide
    · exact ht hm
  · rcases List.mem_cons.mp hm with hm | hm
    · exact absurd hm (by decide)
    · rcases List.mem_cons.mp hm with hm | hm
      · exact absurd hm (by decide)
      · exact hc hm

theorem fullText_cr_free {secs : List PaperSection}
    (h : ∀ s ∈ secs, crChar ∉ s.title ∧ crChar ∉ s.content) :
    crChar ∉ fullText secs := by
  induction secs with
  | nil => simp [fullText, joinSep2]
  | cons s rest ih =>
    cases rest with
    | nil =>
      have : fullText [s] = sectionBlock s := rfl
      rw [this]
      exact sectionBlock_cr_free (h s (List.mem_cons_self _ _)).1
        (h s (List.mem_cons_self _ _)).2
    | cons s2 rest2 =>
      have heq : fullText (s :: s2 :: rest2) =
          sectionBlock s ++ lfChar :: lfChar :: fullText (s2 :: rest2) := rfl
      rw [heq]
      intro hmem
      rcases List.mem_append.mp hmem with hm | hm
      · exact sectionBlock_cr_free (h s (List.mem_cons_self _ _)).1
          (h s (List.mem_cons_self _ _)).2 hm
      · rcases List.mem_cons.mp hm with hm | hm
        · exact absurd hm (by decide)
        · rcases List.mem_cons.mp hm with hm | hm
          · exact absurd hm (by decide)
          · exact ih (fun x hx => h x (List.mem_cons_of_mem s hx)) hm

theorem splitLF_sectionBlock {s : PaperSection} (hlf : lfChar ∉ s.title) :
    splitLF (sectionBlock s) = blockLinesOf s := by
  have heq : sectionBlock s = (str "# " ++ s.title) ++ lfChar :: (lfChar :: s.content) := rfl
  rw [heq, splitLF_append_lf]
  rw [splitLF_singleton (show lfChar ∉ str "# " ++ s.title by
    intro hm
    rcases List.mem_append.mp hm with hm | hm
    · revert hm
      decide
    · exact hlf hm)]
  rw [show splitLF (lfChar :: s.content) = [] :: splitLF s.content by
    conv_lhs => unfold splitLF
    simp]
  rfl

theorem fullText_lines {secs : List PaperSection} (hne : secs ≠ [])
    (h : ∀ s ∈ secs, lfChar ∉ s.title) :
    splitLF (fullText secs) = interLines secs := by
  induction secs with
  | nil => exact absurd rfl hne
  | cons s rest ih =>
    cases rest with
    | nil =>
      have heq : fullText [s] = sectionBlock s := rfl
      rw [heq, splitLF_sectionBlock (h s (List.mem_cons_self _ _))]
      rfl
    | cons s2 rest2 =>
      have heq : fullText (s :: s2 :: rest2) =
          sectionBlock s ++ lfChar :: (lfChar :: fullText (s2 :: rest2)) := rfl
      rw [heq, splitLF_append_lf, splitLF_sectionBlock (h s (List.mem_cons_self _ _))]
      rw [show splitLF (lfChar :: fullText (s2 :: rest2)) =
          [] :: splitLF (fullText (s2 :: rest2)) by
        conv_lhs => unfold splitLF
        simp]
      rw [ih (by simp) (fun x hx => h x (List.mem_cons_of_mem s hx))]
      show blockLinesOf s ++ ([] :: interLines (s2 :: rest2)) = interLines (s :: s2 :: rest2)
      show blockLinesOf s ++ ([] :: interLines (s2 :: rest2)) =
        blockLinesOf s ++ [[]] ++ interLines (s2 :: rest2)
      simp

theorem modFold_reparse (now : Nat) (rest : List PaperSection) :
    ∀ (s : PaperSection) (acc : List PaperSection) (cnt : Nat),
      SecQ s → (∀ x ∈ rest, SecQ x) →
      ((modFinal now (modFold now ⟨s.title, [], acc, cnt⟩
          (([] :: splitLF s.content) ++ tailLines rest))).secs).map
            (fun x => (x.title, x.content)) =
        acc.map (fun x => (x.title, x.content)) ++
          (s :: rest).map (fun x => (x.title, x.content)) := by
  induction rest with
  | nil =>
    intro s acc cnt hQ _
    rw [show tailLines [] = [] from rfl, List.append_nil]
    rw [modFold_content_lines now _ (by
      intro l hl
      rcases List.mem_cons.mp hl with rfl | hl
      · exact headerTitle_nil
      · exact hQ.2.2.2.2.2.2 l hl)]
    unfold modFinal
    simp only [List.nil_append, List.isEmpty_cons, Bool.not_false, Bool.true_or, if_true]
    unfold pushSection
    simp only [listIsEmpty_false hQ.1, Bool.false_eq_true, if_false]
    rw [buffered_content hQ.2.2.2.2.1]
    simp
  | cons r rs ih =>
    intro s acc cnt hQ hrests
    have hQr := hrests r (List.mem_cons_self _ _)
    have hlines : (([] : Str) :: splitLF s.content) ++ tailLines (r :: rs) =
        ((([] : Str) :: splitLF s.content) ++ [[]]) ++
          ((str "# " ++ r.title) :: (([] :: splitLF r.content) ++ tailLines rs)) := by
      rw [show tailLines (r :: rs) = [] :: interLines (r :: rs) from rfl,
        interLines_cons,
        show blockLinesOf r = (str "# " ++ r.title) :: ([] :: splitLF r.content) from rfl]
      simp
    rw [hlines, modFold_append]
    have hC1 : ∀ l ∈ (([] : Str) :: splitLF s.content) ++ [[]], headerTitle l = none := by
      intro l hl
      rcases List.mem_append.mp hl with hl | hl
      · rcases List.mem_cons.mp hl with rfl | hl
        · exact headerTitle_nil
        · exact hQ.2.2.2.2.2.2 l hl
      · rcases List.mem_singleton.mp hl with rfl
        exact headerTitle_nil
    rw [modFold_content_lines now _ hC1]
    simp only [List.nil_append]
    have hml : headerTitle (str "# " ++ r.title) = some r.title :=
      headerTitle_block_title hQr.2.2.2.1 hQr.1
    have hfoldcons : ∀ (st : ModState) (l : Str) (L : List Str),
        modFold now st (l :: L) = modFold now (modStep now st l) L := fun _ _ _ => rfl
    rw [hfoldcons]
    have hstep : modStep now
        ⟨s.title, (([] : Str) :: splitLF s.content) ++ [[]], acc, cnt⟩
        (str "# " ++ r.title) =
        ⟨r.title, [], acc ++ [⟨mkSecId cnt now, s.title, s.content⟩], cnt + 1⟩ := by
      unfold modStep
      rw [hml]
      simp only []
      rw [if_pos (by simp)]
      unfold pushSection
      simp only [listIsEmpty_false hQ.1, Bool.false_eq_true, if_false]
      rw [buffered_content2 hQ.2.2.2.2.1]
    rw [hstep]
    have hihr := ih r
      (acc ++ [{ id := mkSecId cnt now, title := s.title, content := s.content }])
      (cnt + 1) hQr (fun x hx => hrests x (List.mem_cons_of_mem r hx))
    rw [hihr]
    simp

/-- C8 counterexample: with a carriage return in the input that is not part
of a CRLF pair, the round trip loses the CR (the serialised view joins
lines with plain LF, and re-splitting on `\r?\n` then merges the CR into
the line break), so the trimmed content changes although every heading line
is `#`-style and no line matches the uppercase heuristic. -/
theorem c8_roundtrip_loses_lone_cr :
    (∀ l ∈ splitRNLines (str "# T\n\nx\r\r\ny"), lineHeaderMatch2 l = none) ∧
    (modularizeText 0 (str "# T\n\nx\r\r\ny")).map (fun s => s.title) =
      (modularizeText 0 (fullText (modularizeText 0 (str "# T\n\nx\r\r\ny")))).map
        (fun s => s.title) ∧
    (modularizeText 0 (str "# T\n\nx\r\r\ny")).map (fun s => jsTrim s.content) ≠
      (modularizeText 0 (fullText (modularizeText 0 (str "# T\n\nx\r\r\ny")))).map
        (fun s => jsTrim s.content) := by
  refine ⟨?_, ?_, ?_⟩ <;> decide

/-- C8 (amended): for every input text containing no carriage return whose
heading lines are all `#`-style (no line matches the uppercase heuristic),
sectionizing, serialising as the full-document markdown view, and
sectionizing again yields sections with the same titles and the same
(trimmed) contents as the first run. -/
theorem c8_roundtrip_hash_only (now1 now2 : Nat) (text : Str)
    (hcr : crChar ∉ text)
    (hup : ∀ l ∈ splitRNLines text, lineHeaderMatch2 l = none) :
    (modularizeText now2 (fullText (modularizeText now1 text))).map
        (fun s => s.title) =
      (modularizeText now1 text).map (fun s => s.title) ∧
    (modularizeText now2 (fullText (modularizeText now1 text))).map
        (fun s => jsTrim s.content) =
      (modularizeText now1 text).map (fun s => jsTrim s.content) := by
  have hQ : ∀ s ∈ modularizeText now1 text, SecQ s := modularize_Q now1 text hcr hup
  obtain ⟨hscan1, hne1⟩ := modularizeText_scan now1 text
  have hcrF : crChar ∉ fullText (modularizeText now1 text) :=
    fullText_cr_free (fun s hs => ⟨(hQ s hs).2.2.1, (hQ s hs).2.2.2.2.2.1⟩)
  have hsplit : splitRNLines (fullText (modularizeText now1 text)) =
      interLines (modularizeText now1 text) := by
    rw [splitRN_eq_splitLF hcrF]
    exact fullText_lines hne1 (fun s hs => (hQ s hs).2.1)
  obtain ⟨hscan2, _⟩ := modularizeText_scan now2 (fullText (modularizeText now1 text))
  have hpair : (modularizeText now2 (fullText (modularizeText now1 text))).map
      (fun x => (x.title, x.content)) =
      (modularizeText now1 text).map (fun x => (x.title, x.content)) := by
    rw [hscan2, hsplit]
    cases hS1c : modularizeText now1 text with
    | nil => exact absurd hS1c hne1
    | cons s0 rest =>
      have hs0 : s0 ∈ modularizeText now1 text := by
        rw [hS1c]
        exact List.mem_cons_self _ _
      have hQ0 := hQ s0 hs0
      rw [interLines_cons]
      rw [show blockLinesOf s0 ++ tailLines rest =
          (str "# " ++ s0.title) :: ((([] : Str) :: splitLF s0.content) ++ tailLines rest)
        from rfl]
      rw [show modFold now2 ⟨[], [], [], 0⟩
          ((str "# " ++ s0.title) :: ((([] : Str) :: splitLF s0.content) ++ tailLines rest)) =
          modFold now2 (modStep now2 ⟨[], [], [], 0⟩ (str "# " ++ s0.title))
            ((([] : Str) :: splitLF s0.content) ++ tailLines rest) from rfl]
      have hstep0 : modStep now2 ⟨[], [], [], 0⟩ (str "# " ++ s0.title) =
          ⟨s0.title, [], [], 0⟩ := by
        unfold modStep
        rw [headerTitle_block_title hQ0.2.2.2.1 hQ0.1]
        simp only []
        rw [if_neg (by decide)]
      rw [hstep0]
      have hM := modFold_reparse now2 rest s0 [] 0 hQ0
        (fun x hx => hQ x (by rw [hS1c]; exact List.mem_cons_of_mem _ hx))
      rw [hM]
      simp
  constructor
  · have := congrArg (List.map Prod.fst) hpair
    simpa [List.map_map] using this
  · have := congrArg (List.map (fun p : Str × Str => jsTrim p.2)) hpair
    simpa [List.map_map] using this

/-- Witness for C8 (amended) at a two-section `#`-headed document. -/
theorem c8_roundtrip_hash_only_witness :
    (crChar ∉ str "# A\n\nhello cat\n\n# B\n\nworld" ∧
      (∀ l ∈ splitRNLines (str "# A\n\nhello cat\n\n# B\n\nworld"),
        lineHeaderMatch2 l = none)) ∧
    ((modularizeText 1 (fullText (modularizeText 0 (str "# A\n\nhello cat\n\n# B\n\nworld")))).map
        (fun s => s.title) =
      (modularizeText 0 (str "# A\n\nhello cat\n\n# B\n\nworld")).map (fun s => s.title) ∧
    (modularizeText 1 (fullText (modularizeText 0 (str "# A\n\nhello cat\n\n# B\n\nworld")))).map
        (fun s => jsTrim s.content) =
      (modularizeText 0 (str "# A\n\nhello cat\n\n# B\n\nworld")).map
        (fun s => jsTrim s.content)) :=
  ⟨⟨by decide, by decide⟩,
    c8_roundtrip_hash_only 0 1 (str "# A\n\nhello cat\n\n# B\n\nworld")
      (by decide) (by decide)⟩
